import Mathlib

/-!
Verification of the `braumi/artintech` image pipelines.

The repository contains two scripts, `scripts/remove_interior_lines.py`
(wall extractor) and `scripts/generate_floor_mask.py` (floor filler).
This file gives a shallow embedding of their algorithmic content:

* the boundary flood fill of `generate_floor_mask` (the `outside` mask),
* the 4-connected component labeler `connected_components`
  (textually identical in the two scripts),
* Otsu's threshold `otsu_threshold`,
* the component-area filtering step,
* the texture tiling and compositing step,
* the CLI argument checks.

Grids are embedded as functions `ℤ → ℤ → _` taking the row `y` first and
the column `x` second, matching the NumPy indexing `arr[y, x]`; a pixel
coordinate is the pair `(x, y)`, matching the `(x, y)` tuples pushed on the
Python stacks.  Sets of marked pixels (`outside[y, x] == 1`) are embedded
as `Finset (ℤ × ℤ)`.  The Python `while stack:` loops are embedded as
fuel-indexed structural recursion; the top-level wrappers supply fuel
computed from a measure that is proved to strictly decrease, so the
embedded functions are total and evaluate by `decide`/`rfl`.
-/

namespace ArtInTech

/-- The set of in-bounds pixel coordinates `(x, y)` with
`0 ≤ x < w` and `0 ≤ y < h`. -/
def boundsSet (w h : ℕ) : Finset (ℤ × ℤ) :=
  Finset.Ico 0 (w : ℤ) ×ˢ Finset.Ico 0 (h : ℤ)

theorem mem_boundsSet {w h : ℕ} {p : ℤ × ℤ} :
    p ∈ boundsSet w h ↔ 0 ≤ p.1 ∧ p.1 < w ∧ 0 ≤ p.2 ∧ p.2 < h := by
  simp [boundsSet, Finset.mem_product, Finset.mem_Ico, and_assoc]

/-- The four neighbor offsets `((1, 0), (-1, 0), (0, 1), (0, -1))` used by
both scripts. -/
def nbrOffsets : List (ℤ × ℤ) := [(1, 0), (-1, 0), (0, 1), (0, -1)]

/-- Offsetting a pixel by `d`. -/
def shift (p d : ℤ × ℤ) : ℤ × ℤ := (p.1 + d.1, p.2 + d.2)

/-- 4-adjacency of pixels: `q` is one of the four edge-neighbors of `p`. -/
def Adj (p q : ℤ × ℤ) : Prop := ∃ d ∈ nbrOffsets, q = shift p d

theorem Adj.flip {p q : ℤ × ℤ} (h : Adj p q) : Adj q p := by
  obtain ⟨d, hd, rfl⟩ := h
  refine ⟨(-d.1, -d.2), ?_, ?_⟩
  · fin_cases hd <;> simp [nbrOffsets]
  · simp [shift]

instance (p q : ℤ × ℤ) : Decidable (Adj p q) := by
  unfold Adj; infer_instance

/-! ## Boundary flood fill (`generate_floor_mask.py`, step 2)

State of the flood fill: the set of pixels marked `outside`
(`outside[y, x] == 1`) together with the pending stack. -/

abbrev FloodState := Finset (ℤ × ℤ) × List (ℤ × ℤ)

/-- `push_if_valid(x, y)` from `generate_floor_mask`: if `(x, y)` is in
bounds, not a wall, and not yet marked outside, mark it and push it.
The body of the `while` loop performs the same check-mark-push on each
neighbor, so it is embedded with the same function. -/
def pushIfValid (walls : ℤ → ℤ → Bool) (w h : ℕ) (st : FloodState) (p : ℤ × ℤ) :
    FloodState :=
  if 0 ≤ p.1 ∧ p.1 < w ∧ 0 ≤ p.2 ∧ p.2 < h ∧ walls p.2 p.1 = false ∧ p ∉ st.1 then
    (insert p st.1, p :: st.2)
  else st

/-- Folding `pushIfValid` over a list of candidate pixels. -/
def foldPush (walls : ℤ → ℤ → Bool) (w h : ℕ) (ps : List (ℤ × ℤ))
    (st : FloodState) : FloodState :=
  ps.foldl (pushIfValid walls w h) st

/-- Termination measure of a flood-fill state: five times the number of
in-bounds pixels not yet marked, plus the stack length. -/
def floodMeasure (w h : ℕ) (st : FloodState) : ℕ :=
  5 * ((boundsSet w h \ st.1).card) + st.2.length

theorem pushIfValid_measure (walls : ℤ → ℤ → Bool) (w h : ℕ) (st : FloodState)
    (p : ℤ × ℤ) :
    floodMeasure w h (pushIfValid walls w h st p) ≤ floodMeasure w h st := by
  unfold pushIfValid
  split
  · rename_i hc
    obtain ⟨h1, h2, h3, h4, h5, h6⟩ := hc
    have hmem : p ∈ boundsSet w h \ st.1 := by
      simp [Finset.mem_sdiff, mem_boundsSet, h1, h2, h3, h4, h6]
    have hcard : (boundsSet w h \ insert p st.1).card + 1 = (boundsSet w h \ st.1).card := by
      have he : boundsSet w h \ insert p st.1 = (boundsSet w h \ st.1).erase p := by
        ext q
        simp only [Finset.mem_sdiff, Finset.mem_erase, Finset.mem_insert]
        tauto
      rw [he, Finset.card_erase_of_mem hmem]
      have hpos : 0 < (boundsSet w h \ st.1).card := Finset.card_pos.mpr ⟨p, hmem⟩
      omega
    simp only [floodMeasure, List.length_cons]
    omega
  · exact le_refl _

theorem foldPush_measure (walls : ℤ → ℤ → Bool) (w h : ℕ) (ps : List (ℤ × ℤ)) :
    ∀ st : FloodState,
      floodMeasure w h (foldPush walls w h ps st) ≤ floodMeasure w h st := by
  induction ps with
  | nil => intro st; exact le_refl _
  | cons p ps ih =>
      intro st
      exact le_trans (ih _) (pushIfValid_measure walls w h st p)

/-- The list of the four neighbors of a pixel, in the source's offset order. -/
def nbrsOf (c : ℤ × ℤ) : List (ℤ × ℤ) := nbrOffsets.map (shift c)

/-- The `while stack:` loop of the boundary flood fill, fuel-indexed:
pop a pixel, mark-and-push each of its unmarked non-wall in-bounds
4-neighbors.  The top-level wrapper supplies enough fuel for the loop to
run to completion (`floodLoopF_measure_lt` below shows the measure strictly
decreases, so `floodMeasure + 1` steps always suffice). -/
def floodLoopF (walls : ℤ → ℤ → Bool) (w h : ℕ) :
    ℕ → FloodState → Finset (ℤ × ℤ)
  | 0, st => st.1
  | fuel + 1, st =>
      match st.2 with
      | [] => st.1
      | c :: rest =>
          floodLoopF walls w h fuel (foldPush walls w h (nbrsOf c) (st.1, rest))

/-- The list of border pixels pushed by the seeding phase, in source order:
`(x, 0)` and `(x, h-1)` for each `x`, then `(0, y)` and `(w-1, y)` for
each `y`. -/
def borderSeeds (w h : ℕ) : List (ℤ × ℤ) :=
  ((List.range w).flatMap fun x => [((x : ℤ), 0), ((x : ℤ), (h : ℤ) - 1)]) ++
  ((List.range h).flatMap fun y => [(0, (y : ℤ)), ((w : ℤ) - 1, (y : ℤ))])

/-- The boundary flood fill of `generate_floor_mask`: seed with all
non-wall border pixels, then flood 4-connectivity through non-wall pixels.
Returns the set of pixels with `outside[y, x] == 1`. -/
def generateOutside (walls : ℤ → ℤ → Bool) (w h : ℕ) : Finset (ℤ × ℤ) :=
  let st0 := foldPush walls w h (borderSeeds w h) (∅, [])
  floodLoopF walls w h (floodMeasure w h st0 + 1) st0

/-- A border pixel: first or last column, or first or last row. -/
def isBorder (w h : ℕ) (p : ℤ × ℤ) : Prop :=
  p.1 = 0 ∨ p.1 = (w : ℤ) - 1 ∨ p.2 = 0 ∨ p.2 = (h : ℤ) - 1

instance (w h : ℕ) (p : ℤ × ℤ) : Decidable (isBorder w h p) := by
  unfold isBorder; infer_instance

/-- Reachability from the border through non-wall pixels: the specification
of the `outside` mask.  `Reach walls w h p` holds iff there is a path of
4-connected in-bounds non-wall pixels from some non-wall border pixel
to `p`. -/
inductive Reach (walls : ℤ → ℤ → Bool) (w h : ℕ) : ℤ × ℤ → Prop
  | border (p : ℤ × ℤ) : p ∈ boundsSet w h → isBorder w h p →
      walls p.2 p.1 = false → Reach walls w h p
  | step {q p : ℤ × ℤ} : Reach walls w h q → Adj q p → p ∈ boundsSet w h →
      walls p.2 p.1 = false → Reach walls w h p

/-- Candidate floor mask of `generate_floor_mask`, step 3:
`floor = (walls == 0) & (outside == 0)`. -/
def floorMask (walls : ℤ → ℤ → Bool) (w h : ℕ) : ℤ → ℤ → Bool :=
  fun y x => !walls y x && decide ((x, y) ∉ generateOutside walls w h)

/-! ### Elementary facts about `pushIfValid` and `foldPush` -/

section FloodLemmas

variable {walls : ℤ → ℤ → Bool} {w h : ℕ}

/-- Either `pushIfValid` leaves the state unchanged, or it marks and pushes a
fresh valid pixel. -/
theorem pushIfValid_cases (st : FloodState) (p : ℤ × ℤ) :
    pushIfValid walls w h st p = st ∨
      (pushIfValid walls w h st p = (insert p st.1, p :: st.2) ∧
        p ∈ boundsSet w h ∧ walls p.2 p.1 = false ∧ p ∉ st.1) := by
  unfold pushIfValid
  split
  · rename_i hc
    exact Or.inr ⟨rfl, mem_boundsSet.mpr ⟨hc.1, hc.2.1, hc.2.2.1, hc.2.2.2.1⟩,
      hc.2.2.2.2.1, hc.2.2.2.2.2⟩
  · exact Or.inl rfl

theorem pushIfValid_marked_mono (st : FloodState) (p : ℤ × ℤ) :
    st.1 ⊆ (pushIfValid walls w h st p).1 := by
  rcases @pushIfValid_cases walls w h st p with hc | hc
  · rw [hc]
  · rw [hc.1]; exact Finset.subset_insert _ _

theorem foldPush_marked_mono (ps : List (ℤ × ℤ)) :
    ∀ st : FloodState, st.1 ⊆ (foldPush walls w h ps st).1 := by
  induction ps with
  | nil => intro st; exact subset_rfl
  | cons p ps ih =>
      intro st
      exact (pushIfValid_marked_mono st p).trans (ih _)

/-- Every pixel marked by `foldPush` was already marked or is one of the
pushed candidates, in bounds and not a wall. -/
theorem foldPush_marked_sound (ps : List (ℤ × ℤ)) :
    ∀ st : FloodState, ∀ q ∈ (foldPush walls w h ps st).1,
      q ∈ st.1 ∨ (q ∈ ps ∧ q ∈ boundsSet w h ∧ walls q.2 q.1 = false) := by
  induction ps with
  | nil => intro st q hq; exact Or.inl hq
  | cons p ps ih =>
      intro st q hq
      rcases ih _ q hq with hq1 | hq1
      · rcases @pushIfValid_cases walls w h st p with hc | hc
        · rw [hc] at hq1; exact Or.inl hq1
        · rw [hc.1] at hq1
          rcases Finset.mem_insert.mp hq1 with rfl | hq2
          · exact Or.inr ⟨List.mem_cons_self _ _, hc.2.1, hc.2.2.1⟩
          · exact Or.inl hq2
      · exact Or.inr ⟨List.mem_cons_of_mem _ hq1.1, hq1.2⟩

theorem pushIfValid_stack_mono (st : FloodState) (p : ℤ × ℤ) :
    ∀ q ∈ st.2, q ∈ (pushIfValid walls w h st p).2 := by
  intro q hq
  rcases @pushIfValid_cases walls w h st p with hc | hc
  · rw [hc]; exact hq
  · rw [hc.1]; exact List.mem_cons_of_mem _ hq

theorem foldPush_stack_mono (ps : List (ℤ × ℤ)) :
    ∀ st : FloodState, ∀ q ∈ st.2, q ∈ (foldPush walls w h ps st).2 := by
  induction ps with
  | nil => intro st q hq; exact hq
  | cons p ps ih =>
      intro st q hq
      exact ih _ q (pushIfValid_stack_mono st p q hq)

/-- Every pixel marked by `foldPush` was already marked or sits on the
resulting stack. -/
theorem foldPush_marked_or_stacked (ps : List (ℤ × ℤ)) :
    ∀ st : FloodState, ∀ q ∈ (foldPush walls w h ps st).1,
      q ∈ st.1 ∨ q ∈ (foldPush walls w h ps st).2 := by
  induction ps with
  | nil => intro st q hq; exact Or.inl hq
  | cons p ps ih =>
      intro st q hq
      rcases ih _ q hq with hq1 | hq1
      · rcases @pushIfValid_cases walls w h st p with hc | hc
        · rw [hc] at hq1; exact Or.inl hq1
        · rw [hc.1] at hq1
          rcases Finset.mem_insert.mp hq1 with rfl | hq2
          · refine Or.inr ?_
            show q ∈ (foldPush walls w h ps (pushIfValid walls w h st q)).2
            refine foldPush_stack_mono ps _ q ?_
            rw [hc.1]
            exact List.mem_cons_self _ _
          · exact Or.inl hq2
      · exact Or.inr hq1

/-- A candidate that is in bounds and not a wall is marked after its own push
(it was either fresh, and gets inserted, or already marked). -/
theorem pushIfValid_self (st : FloodState) {p : ℤ × ℤ}
    (hb : p ∈ boundsSet w h) (hw : walls p.2 p.1 = false) :
    p ∈ (pushIfValid walls w h st p).1 := by
  unfold pushIfValid
  obtain ⟨h1, h2, h3, h4⟩ := mem_boundsSet.mp hb
  split
  · exact Finset.mem_insert_self _ _
  · rename_i hc
    simp only [h1, h2, h3, h4, hw, true_and, and_true, not_true_eq_false,
      not_not] at hc
    · exact hc

/-- Every in-bounds non-wall candidate in the pushed list is marked after the
fold. -/
theorem foldPush_covers (ps : List (ℤ × ℤ)) :
    ∀ st : FloodState, ∀ p ∈ ps, p ∈ boundsSet w h → walls p.2 p.1 = false →
      p ∈ (foldPush walls w h ps st).1 := by
  induction ps with
  | nil => intro st p hp; exact absurd hp (List.not_mem_nil p)
  | cons c ps ih =>
      intro st p hp hb hw
      rcases List.mem_cons.mp hp with rfl | hp1
      · exact foldPush_marked_mono ps _ (pushIfValid_self st hb hw)
      · exact ih _ p hp1 hb hw

/-- If the stack is contained in the marked set, this remains true after a
fold of pushes. -/
theorem foldPush_stackMarked (ps : List (ℤ × ℤ)) :
    ∀ st : FloodState, (∀ q ∈ st.2, q ∈ st.1) →
      ∀ q ∈ (foldPush walls w h ps st).2, q ∈ (foldPush walls w h ps st).1 := by
  induction ps with
  | nil => intro st hst q hq; exact hst q hq
  | cons p ps ih =>
      intro st hst q hq
      refine ih _ ?_ q hq
      intro r hr
      rcases @pushIfValid_cases walls w h st p with hc | hc
      · rw [hc] at hr ⊢; exact hst r hr
      · rw [hc.1] at hr ⊢
        rcases List.mem_cons.mp hr with rfl | hr1
        · exact Finset.mem_insert_self _ _
        · exact Finset.mem_insert_of_mem (hst r hr1)

end FloodLemmas

/-- Invariant of the boundary flood-fill loop: every marked pixel is a sound
`outside` pixel, every stacked pixel is marked, and every marked pixel that is
no longer pending has all its valid neighbors marked. -/
structure FloodInv (walls : ℤ → ℤ → Bool) (w h : ℕ) (st : FloodState) : Prop where
  sound : ∀ p ∈ st.1, p ∈ boundsSet w h ∧ walls p.2 p.1 = false ∧ Reach walls w h p
  stackMarked : ∀ p ∈ st.2, p ∈ st.1
  closed : ∀ p ∈ st.1, p ∉ st.2 → ∀ q, Adj p q → q ∈ boundsSet w h →
    walls q.2 q.1 = false → q ∈ st.1

/-- Main loop lemma for the boundary flood fill: given sufficient fuel and the
loop invariant, the result extends the marked set, contains only sound
`outside` pixels, and is closed under stepping to valid neighbors. -/
theorem floodLoopF_spec (walls : ℤ → ℤ → Bool) (w h : ℕ) :
    ∀ (fuel : ℕ) (st : FloodState), floodMeasure w h st < fuel →
      FloodInv walls w h st →
      st.1 ⊆ floodLoopF walls w h fuel st ∧
      (∀ p ∈ floodLoopF walls w h fuel st,
        p ∈ boundsSet w h ∧ walls p.2 p.1 = false ∧ Reach walls w h p) ∧
      (∀ p ∈ floodLoopF walls w h fuel st, ∀ q, Adj p q → q ∈ boundsSet w h →
        walls q.2 q.1 = false → q ∈ floodLoopF walls w h fuel st) := by
  intro fuel
  induction fuel with
  | zero => intro st hm; exact absurd hm (Nat.not_lt_zero _)
  | succ fuel ih =>
      intro st hm hinv
      match hst : st.2 with
      | [] =>
          simp only [floodLoopF, hst]
          refine ⟨subset_rfl, hinv.sound, ?_⟩
          intro p hp q hadj hqb hqw
          exact hinv.closed p hp (by rw [hst]; exact List.not_mem_nil p) q hadj hqb hqw
      | c :: rest =>
          have hcmark : c ∈ st.1 := hinv.stackMarked c (by rw [hst]; exact List.mem_cons_self _ _)
          have hcreach : Reach walls w h c := (hinv.sound c hcmark).2.2
          set st' := foldPush walls w h (nbrsOf c) (st.1, rest) with hst'
          have hm' : floodMeasure w h st' < fuel := by
            have h1 : floodMeasure w h st' ≤ floodMeasure w h (st.1, rest) :=
              foldPush_measure walls w h (nbrsOf c) _
            have h2 : floodMeasure w h (st.1, rest) + 1 = floodMeasure w h st := by
              simp only [floodMeasure, hst, List.length_cons]
              omega
            omega
          have hrest_sub : ∀ q ∈ rest, q ∈ st'.2 := fun q hq =>
            foldPush_stack_mono (nbrsOf c) (st.1, rest) q hq
          have hinv' : FloodInv walls w h st' := by
            refine ⟨?_, ?_, ?_⟩
            · intro p hp
              rcases foldPush_marked_sound (nbrsOf c) (st.1, rest) p hp with hp1 | hp1
              · exact hinv.sound p hp1
              · obtain ⟨hpn, hpb, hpw⟩ := hp1
                obtain ⟨d, hd, rfl⟩ := List.mem_map.mp hpn
                exact ⟨hpb, hpw, Reach.step hcreach ⟨d, hd, rfl⟩ hpb hpw⟩
            · exact foldPush_stackMarked (nbrsOf c) (st.1, rest)
                (fun q hq => hinv.stackMarked q (by rw [hst]; exact List.mem_cons_of_mem _ hq))
            · intro p hp hpstack q hadj hqb hqw
              rcases foldPush_marked_or_stacked (nbrsOf c) (st.1, rest) p hp with hp1 | hp1
              · by_cases hpc : p = c
                · subst hpc
                  obtain ⟨d, hd, rfl⟩ := hadj
                  exact foldPush_covers (nbrsOf p) (st.1, rest) _
                    (List.mem_map.mpr ⟨d, hd, rfl⟩) hqb hqw
                · have hpnotrest : p ∉ rest := fun hmem => hpstack (hrest_sub p hmem)
                  have hpnot : p ∉ st.2 := by
                    rw [hst]
                    intro hmem
                    rcases List.mem_cons.mp hmem with rfl | hmem1
                    · exact hpc rfl
                    · exact hpnotrest hmem1
                  exact foldPush_marked_mono (nbrsOf c) (st.1, rest)
                    (hinv.closed p hp1 hpnot q hadj hqb hqw)
              · exact absurd hp1 hpstack
          obtain ⟨ihsub, ihsound, ihclosed⟩ := ih st' hm' hinv'
          have hloop : floodLoopF walls w h (fuel + 1) st = floodLoopF walls w h fuel st' := by
            rw [floodLoopF]
            simp only [hst]
          rw [hloop]
          refine ⟨?_, ihsound, ihclosed⟩
          exact (foldPush_marked_mono (nbrsOf c) (st.1, rest)).trans ihsub

theorem borderSeeds_isBorder {w h : ℕ} {p : ℤ × ℤ} (hp : p ∈ borderSeeds w h) :
    isBorder w h p := by
  simp only [borderSeeds, List.mem_append, List.mem_flatMap, List.mem_range,
    List.mem_cons, List.not_mem_nil, or_false] at hp
  rcases hp with ⟨x, _, rfl | rfl⟩ | ⟨y, _, rfl | rfl⟩
  · exact Or.inr (Or.inr (Or.inl rfl))
  · exact Or.inr (Or.inr (Or.inr rfl))
  · exact Or.inl rfl
  · exact Or.inr (Or.inl rfl)

theorem mem_borderSeeds {w h : ℕ} {p : ℤ × ℤ} (hb : p ∈ boundsSet w h)
    (hbd : isBorder w h p) : p ∈ borderSeeds w h := by
  obtain ⟨h1, h2, h3, h4⟩ := mem_boundsSet.mp hb
  simp only [borderSeeds, List.mem_append, List.mem_flatMap, List.mem_range,
    List.mem_cons, List.not_mem_nil, or_false]
  rcases hbd with hp | hp | hp | hp
  · refine Or.inr ⟨p.2.toNat, by omega, Or.inl ?_⟩
    rw [Int.toNat_of_nonneg h3, ← hp]
  · refine Or.inr ⟨p.2.toNat, by omega, Or.inr ?_⟩
    rw [Int.toNat_of_nonneg h3, ← hp]
  · refine Or.inl ⟨p.1.toNat, by omega, Or.inl ?_⟩
    rw [Int.toNat_of_nonneg h1, ← hp]
  · refine Or.inl ⟨p.1.toNat, by omega, Or.inr ?_⟩
    rw [Int.toNat_of_nonneg h1, ← hp]

theorem seedState_inv (walls : ℤ → ℤ → Bool) (w h : ℕ) :
    FloodInv walls w h (foldPush walls w h (borderSeeds w h) (∅, [])) := by
  refine ⟨?_, ?_, ?_⟩
  · intro p hp
    rcases foldPush_marked_sound (borderSeeds w h) (∅, []) p hp with hp1 | hp1
    · exact absurd hp1 (Finset.not_mem_empty p)
    · exact ⟨hp1.2.1, hp1.2.2,
        Reach.border p hp1.2.1 (borderSeeds_isBorder hp1.1) hp1.2.2⟩
  · exact foldPush_stackMarked (borderSeeds w h) (∅, [])
      (fun q hq => absurd hq (List.not_mem_nil q))
  · intro p hp hpstack q _ _ _
    rcases foldPush_marked_or_stacked (borderSeeds w h) (∅, []) p hp with hp1 | hp1
    · exact absurd hp1 (Finset.not_mem_empty p)
    · exact absurd hp1 hpstack

/-- The `outside` mask computed by the boundary flood fill contains a pixel
iff it is reachable from a non-wall border pixel through in-bounds non-wall
pixels. -/
theorem generateOutside_iff (walls : ℤ → ℤ → Bool) (w h : ℕ) (p : ℤ × ℤ) :
    p ∈ generateOutside walls w h ↔ Reach walls w h p := by
  have hspec := floodLoopF_spec walls w h
    (floodMeasure w h (foldPush walls w h (borderSeeds w h) (∅, [])) + 1)
    (foldPush walls w h (borderSeeds w h) (∅, []))
    (Nat.lt_succ_self _) (seedState_inv walls w h)
  show p ∈ floodLoopF walls w h _ _ ↔ _
  constructor
  · intro hp
    exact (hspec.2.1 p hp).2.2
  · intro hr
    induction hr with
    | border q hqb hqbd hqw =>
        exact hspec.1 (foldPush_covers (borderSeeds w h) (∅, []) q
          (mem_borderSeeds hqb hqbd) hqb hqw)
    | step hq hadj hpb hpw ihq =>
        exact hspec.2.2 _ ihq _ hadj hpb hpw

/-- Every pixel of the `outside` mask is in bounds and not a wall. -/
theorem generateOutside_sound (walls : ℤ → ℤ → Bool) (w h : ℕ) (p : ℤ × ℤ)
    (hp : p ∈ generateOutside walls w h) :
    p ∈ boundsSet w h ∧ walls p.2 p.1 = false := by
  induction (generateOutside_iff walls w h p).mp hp with
  | border q hqb _ hqw => exact ⟨hqb, hqw⟩
  | step _ _ hpb hpw => exact ⟨hpb, hpw⟩

/-- C1: for every wall mask, the boundary flood fill in `generate_floor_mask`
produces an outside mask containing exactly those pixels that are non-wall and
reachable from some non-wall border pixel via a path of 4-connected non-wall
pixels; in particular, if every border pixel is a wall pixel, the outside mask
is all-zero and the candidate floor equals the set of all non-wall pixels. -/
theorem claim_C1 (walls : ℤ → ℤ → Bool) (w h : ℕ) :
    (∀ p, p ∈ generateOutside walls w h ↔ Reach walls w h p) ∧
    ((∀ p ∈ boundsSet w h, isBorder w h p → walls p.2 p.1 = true) →
      generateOutside walls w h = ∅ ∧
      ∀ p ∈ boundsSet w h, floorMask walls w h p.2 p.1 = !walls p.2 p.1) := by
  refine ⟨generateOutside_iff walls w h, ?_⟩
  intro hall
  have hnr : ∀ p, ¬Reach walls w h p := by
    intro p hr
    induction hr with
    | border q hqb hqbd hqw =>
        rw [hall q hqb hqbd] at hqw
        exact Bool.noConfusion hqw
    | step _ _ _ _ ihq => exact ihq
  have hempty : generateOutside walls w h = ∅ := by
    rw [Finset.eq_empty_iff_forall_not_mem]
    intro p hp
    exact hnr p ((generateOutside_iff walls w h p).mp hp)
  refine ⟨hempty, ?_⟩
  intro p _
  simp [floorMask, hempty]

theorem claim_C1_witness :
    generateOutside (fun _ _ => true) 2 2 = ∅ ∧
    ((0, 0) ∈ generateOutside (fun _ _ => false) 2 2 ↔
      Reach (fun _ _ => false) 2 2 (0, 0)) :=
  ⟨((claim_C1 (fun _ _ => true) 2 2).2 (by decide)).1,
   (claim_C1 (fun _ _ => false) 2 2).1 (0, 0)⟩

/-- C10: in `generate_floor_mask`, before filtering and smoothing, the wall
mask, the outside mask, and the candidate floor mask partition the pixel grid:
every in-bounds pixel belongs to exactly one of the three. -/
theorem claim_C10 (walls : ℤ → ℤ → Bool) (w h : ℕ) (p : ℤ × ℤ)
    (hp : p ∈ boundsSet w h) :
    ((if walls p.2 p.1 = true then 1 else 0) +
     (if p ∈ generateOutside walls w h then 1 else 0) +
     (if floorMask walls w h p.2 p.1 = true then 1 else 0) : ℕ) = 1 := by
  by_cases hw : walls p.2 p.1 = true
  · have hout : p ∉ generateOutside walls w h := by
      intro hmem
      have := (generateOutside_sound walls w h p hmem).2
      rw [this] at hw
      exact Bool.noConfusion hw
    have hfl : ¬floorMask walls w h p.2 p.1 = true := by
      simp [floorMask, hw]
    simp [hw, hout, hfl]
  · have hw' : walls p.2 p.1 = false := by
      revert hw
      cases walls p.2 p.1 <;> simp
    by_cases hout : p ∈ generateOutside walls w h
    · have hfl : ¬floorMask walls w h p.2 p.1 = true := by
        simp [floorMask, hw']
        exact hout
      simp [hw, hout, hfl]
    · have hfl : floorMask walls w h p.2 p.1 = true := by
        simp [floorMask, hw']
        exact hout
      simp [hw, hout, hfl]

theorem claim_C10_witness :
    ((if (fun (_ _ : ℤ) => false) (0 : ℤ) (0 : ℤ) = true then 1 else 0) +
     (if ((0 : ℤ), (0 : ℤ)) ∈ generateOutside (fun _ _ => false) 1 1 then 1 else 0) +
     (if floorMask (fun _ _ => false) 1 1 0 0 = true then 1 else 0) : ℕ) = 1 :=
  claim_C10 (fun _ _ => false) 1 1 (0, 0) (by decide)

/-! ## Connected components (`connected_components`, textually identical in
`remove_interior_lines.py` and `generate_floor_mask.py`)

The label grid is embedded as a function `ℤ × ℤ → ℤ` with sentinel `-1`
(`labels = -np.ones_like(mask)`); the stats array entry for a component is
`(min_x, min_y, max_x - min_x + 1, max_y - min_y + 1, area)` in OpenCV's
`CC_STAT` order. -/

/-- One row of the `stats` array: `[x, y, w, h, area]` in `CC_STAT_*`
order, appended as
`(min_x, min_y, max_x - min_x + 1, max_y - min_y + 1, area)`. -/
structure CCStat where
  x : ℤ
  y : ℤ
  width : ℤ
  height : ℤ
  area : ℕ
  deriving DecidableEq, Repr

instance : Inhabited CCStat := ⟨⟨0, 0, 0, 0, 0⟩⟩

/-- State of the per-component flood fill: the label grid, the pending stack,
and the running area and bounding-box accumulators. -/
structure CCState where
  labels : ℤ × ℤ → ℤ
  stack : List (ℤ × ℤ)
  area : ℕ
  minX : ℤ
  maxX : ℤ
  minY : ℤ
  maxY : ℤ

/-- The neighbor handling of the inner flood fill: skip the neighbor if out
of bounds, background, or already labeled; otherwise label it with the
current component id and push it. -/
def ccPush (mask : ℤ → ℤ → Bool) (w h : ℕ) (cur : ℤ) (st : CCState)
    (p : ℤ × ℤ) : CCState :=
  if 0 ≤ p.1 ∧ p.1 < w ∧ 0 ≤ p.2 ∧ p.2 < h ∧ mask p.2 p.1 = true ∧
      st.labels p = -1 then
    { st with labels := fun q => if q = p then cur else st.labels q,
              stack := p :: st.stack }
  else st

/-- Folding `ccPush` over a list of candidate pixels (the `for dx, dy in
...` neighbor loop). -/
def ccFold (mask : ℤ → ℤ → Bool) (w h : ℕ) (cur : ℤ) (ps : List (ℤ × ℤ))
    (st : CCState) : CCState :=
  ps.foldl (ccPush mask w h cur) st

/-- Termination measure of the inner flood fill: five times the number of
in-bounds unlabeled pixels plus the stack length. -/
def ccMeasure (w h : ℕ) (st : CCState) : ℕ :=
  5 * ((boundsSet w h).filter (fun q => st.labels q = -1)).card + st.stack.length

/-- The `while stack:` loop of the per-component flood fill, fuel-indexed:
pop `(cx, cy)`, bump the area, extend the bounding box, and handle the four
neighbors with `ccPush`. -/
def ccLoopF (mask : ℤ → ℤ → Bool) (w h : ℕ) (cur : ℤ) :
    ℕ → CCState → CCState
  | 0, st => st
  | fuel + 1, st =>
      match st.stack with
      | [] => st
      | c :: rest =>
          ccLoopF mask w h cur fuel
            (ccFold mask w h cur (nbrsOf c)
              { st with stack := rest, area := st.area + 1,
                        minX := min st.minX c.1, maxX := max st.maxX c.1,
                        minY := min st.minY c.2, maxY := max st.maxY c.2 })

/-- The row-major scan order of the outer double loop
(`for y in range(h): for x in range(w):`). -/
def scanList (w h : ℕ) : List (ℤ × ℤ) :=
  (List.range h).flatMap fun (y : ℕ) => (List.range w).map fun (x : ℕ) => ((x : ℤ), (y : ℤ))

/-- The body of the outer double loop: skip background or already-labeled
pixels; otherwise seed a new component at `p` with the next id, flood it,
and append its stats row. -/
def ccStep (mask : ℤ → ℤ → Bool) (w h : ℕ)
    (acc : (ℤ × ℤ → ℤ) × List CCStat × ℕ) (p : ℤ × ℤ) :
    (ℤ × ℤ → ℤ) × List CCStat × ℕ :=
  if mask p.2 p.1 = false ∨ acc.1 p ≠ -1 then acc
  else
    let cur : ℤ := (acc.2.2 : ℤ)
    let st0 : CCState :=
      { labels := fun q => if q = p then cur else acc.1 q,
        stack := [p], area := 0,
        minX := p.1, maxX := p.1, minY := p.2, maxY := p.2 }
    let stf := ccLoopF mask w h cur (ccMeasure w h st0 + 1) st0
    (stf.labels,
     acc.2.1 ++ [⟨stf.minX, stf.minY, stf.maxX - stf.minX + 1,
                  stf.maxY - stf.minY + 1, stf.area⟩],
     acc.2.2 + 1)

/-- `connected_components(mask)`: 4-connected components of a binary mask,
returning the label grid (sentinel `-1` for background) and the per-component
stats rows in discovery order. -/
def connected_components (mask : ℤ → ℤ → Bool) (w h : ℕ) :
    (ℤ × ℤ → ℤ) × List CCStat :=
  let r := (scanList w h).foldl (ccStep mask w h) (fun _ => -1, [], 0)
  (r.1, r.2.1)

/-- Connectivity through foreground pixels: the reflexive-transitive closure
of 4-adjacency restricted to in-bounds foreground pixels. -/
inductive Conn (mask : ℤ → ℤ → Bool) (w h : ℕ) : ℤ × ℤ → ℤ × ℤ → Prop
  | refl (p : ℤ × ℤ) : p ∈ boundsSet w h → mask p.2 p.1 = true →
      Conn mask w h p p
  | tail {p q r : ℤ × ℤ} : Conn mask w h p q → Adj q r → r ∈ boundsSet w h →
      mask r.2 r.1 = true → Conn mask w h p r

theorem Conn.src_fg {mask : ℤ → ℤ → Bool} {w h : ℕ} {p q : ℤ × ℤ}
    (hc : Conn mask w h p q) : p ∈ boundsSet w h ∧ mask p.2 p.1 = true := by
  induction hc with
  | refl hb hf => exact ⟨hb, hf⟩
  | tail _ _ _ _ ih => exact ih

theorem Conn.dst_fg {mask : ℤ → ℤ → Bool} {w h : ℕ} {p q : ℤ × ℤ}
    (hc : Conn mask w h p q) : q ∈ boundsSet w h ∧ mask q.2 q.1 = true := by
  cases hc with
  | refl hb hf => exact ⟨hb, hf⟩
  | tail _ _ hb hf => exact ⟨hb, hf⟩

theorem Conn.trans {mask : ℤ → ℤ → Bool} {w h : ℕ} {p q r : ℤ × ℤ}
    (h1 : Conn mask w h p q) (h2 : Conn mask w h q r) : Conn mask w h p r := by
  induction h2 with
  | refl _ _ => exact h1
  | tail _ hadj hb hf ih => exact Conn.tail ih hadj hb hf

theorem Conn.symm {mask : ℤ → ℤ → Bool} {w h : ℕ} {p q : ℤ × ℤ}
    (hc : Conn mask w h p q) : Conn mask w h q p := by
  induction hc with
  | refl hb hf => exact Conn.refl _ hb hf
  | tail hpq hadj hb hf ih =>
      refine Conn.trans ?_ ih
      exact Conn.tail (Conn.refl _ hb hf) hadj.flip hpq.dst_fg.1 hpq.dst_fg.2

/-- A single adjacency step between foreground pixels yields connectivity. -/
theorem Conn.single {mask : ℤ → ℤ → Bool} {w h : ℕ} {p q : ℤ × ℤ}
    (hpb : p ∈ boundsSet w h) (hpf : mask p.2 p.1 = true) (hadj : Adj p q)
    (hqb : q ∈ boundsSet w h) (hqf : mask q.2 q.1 = true) :
    Conn mask w h p q :=
  Conn.tail (Conn.refl p hpb hpf) hadj hqb hqf

/-! ### Elementary facts about `ccPush` and its folds -/

section CCLemmas

variable {mask : ℤ → ℤ → Bool} {w h : ℕ} {cur : ℤ}

theorem ccPush_cases (st : CCState) (p : ℤ × ℤ) :
    ccPush mask w h cur st p = st ∨
      (ccPush mask w h cur st p =
        { st with labels := fun q => if q = p then cur else st.labels q,
                  stack := p :: st.stack } ∧
        p ∈ boundsSet w h ∧ mask p.2 p.1 = true ∧ st.labels p = -1) := by
  unfold ccPush
  split
  · rename_i hc
    exact Or.inr ⟨rfl, mem_boundsSet.mpr ⟨hc.1, hc.2.1, hc.2.2.1, hc.2.2.2.1⟩,
      hc.2.2.2.2.1, hc.2.2.2.2.2⟩
  · exact Or.inl rfl

/-- `ccPush` does not touch the area and bounding-box accumulators. -/
theorem ccPush_geom (st : CCState) (p : ℤ × ℤ) :
    (ccPush mask w h cur st p).area = st.area ∧
    (ccPush mask w h cur st p).minX = st.minX ∧
    (ccPush mask w h cur st p).maxX = st.maxX ∧
    (ccPush mask w h cur st p).minY = st.minY ∧
    (ccPush mask w h cur st p).maxY = st.maxY := by
  unfold ccPush
  split <;> exact ⟨rfl, rfl, rfl, rfl, rfl⟩

/-- `ccPush` never relabels an already-labeled pixel. -/
theorem ccPush_labels_mono (st : CCState) (p q : ℤ × ℤ)
    (hq : st.labels q ≠ -1) :
    (ccPush mask w h cur st p).labels q = st.labels q := by
  rcases @ccPush_cases mask w h cur st p with hc | hc
  · rw [hc]
  · rw [hc.1]
    simp only
    split
    · rename_i hqp
      rw [hqp] at hq
      exact absurd hc.2.2.2 hq
    · rfl

/-- Any label changed by `ccPush` went from `-1` to `cur` on the pushed
in-bounds foreground pixel. -/
theorem ccPush_labels_cases (st : CCState) (p q : ℤ × ℤ) :
    (ccPush mask w h cur st p).labels q = st.labels q ∨
      (q = p ∧ st.labels q = -1 ∧ (ccPush mask w h cur st p).labels q = cur ∧
        q ∈ boundsSet w h ∧ mask q.2 q.1 = true) := by
  rcases @ccPush_cases mask w h cur st p with hc | hc
  · rw [hc]; exact Or.inl rfl
  · rw [hc.1]
    simp only
    by_cases hqp : q = p
    · subst hqp
      exact Or.inr ⟨rfl, hc.2.2.2, by simp, hc.2.1, hc.2.2.1⟩
    · refine Or.inl ?_
      simp only [hqp, if_false]

theorem ccFold_geom (ps : List (ℤ × ℤ)) :
    ∀ st : CCState,
      (ccFold mask w h cur ps st).area = st.area ∧
      (ccFold mask w h cur ps st).minX = st.minX ∧
      (ccFold mask w h cur ps st).maxX = st.maxX ∧
      (ccFold mask w h cur ps st).minY = st.minY ∧
      (ccFold mask w h cur ps st).maxY = st.maxY := by
  induction ps with
  | nil => intro st; exact ⟨rfl, rfl, rfl, rfl, rfl⟩
  | cons p ps ih =>
      intro st
      obtain ⟨e1, e2, e3, e4, e5⟩ := ih (ccPush mask w h cur st p)
      obtain ⟨f1, f2, f3, f4, f5⟩ := @ccPush_geom mask w h cur st p
      exact ⟨e1.trans f1, e2.trans f2, e3.trans f3, e4.trans f4, e5.trans f5⟩

theorem ccFold_labels_mono (ps : List (ℤ × ℤ)) :
    ∀ st : CCState, ∀ q, st.labels q ≠ -1 →
      (ccFold mask w h cur ps st).labels q = st.labels q := by
  induction ps with
  | nil => intro st q _; rfl
  | cons p ps ih =>
      intro st q hq
      have h1 : (ccPush mask w h cur st p).labels q = st.labels q :=
        ccPush_labels_mono st p q hq
      rw [ccFold, List.foldl_cons, ← ccFold, ih _ q (by rw [h1]; exact hq), h1]

theorem ccFold_labels_cases (hcur : cur ≠ -1) (ps : List (ℤ × ℤ)) :
    ∀ st : CCState, ∀ q,
      (ccFold mask w h cur ps st).labels q = st.labels q ∨
        (q ∈ ps ∧ st.labels q = -1 ∧ (ccFold mask w h cur ps st).labels q = cur ∧
          q ∈ boundsSet w h ∧ mask q.2 q.1 = true) := by
  induction ps with
  | nil => intro st q; exact Or.inl rfl
  | cons p ps ih =>
      intro st q
      rw [ccFold, List.foldl_cons, ← ccFold]
      rcases @ccPush_labels_cases mask w h cur st p q with hc | hc
      · rcases ih (ccPush mask w h cur st p) q with hd | hd
        · exact Or.inl (hd.trans hc)
        · exact Or.inr ⟨List.mem_cons_of_mem _ hd.1, by rw [← hc]; exact hd.2.1,
            hd.2.2⟩
      · obtain ⟨rfl, hl1, hl2, hb, hf⟩ := hc
        refine Or.inr ⟨List.mem_cons_self _ _, hl1, ?_, hb, hf⟩
        rw [ccFold_labels_mono ps _ q (by rw [hl2]; exact hcur), hl2]

/-- Stack invariant of the per-component flood fill: the stack has no
duplicates and every stacked pixel is an in-bounds foreground pixel already
labeled `cur`. -/
def CCStackInv (mask : ℤ → ℤ → Bool) (w h : ℕ) (cur : ℤ) (st : CCState) : Prop :=
  st.stack.Nodup ∧
  ∀ q ∈ st.stack, st.labels q = cur ∧ q ∈ boundsSet w h ∧ mask q.2 q.1 = true

theorem ccPush_stackInv (hcur : cur ≠ -1) (st : CCState) (p : ℤ × ℤ)
    (hst : CCStackInv mask w h cur st) :
    CCStackInv mask w h cur (ccPush mask w h cur st p) := by
  rcases @ccPush_cases mask w h cur st p with hc | hc
  · rw [hc]; exact hst
  · obtain ⟨heq, hb, hf, hl⟩ := hc
    have hpnot : p ∉ st.stack := by
      intro hmem
      rw [(hst.2 p hmem).1] at hl
      exact hcur hl
    rw [heq]
    refine ⟨List.nodup_cons.mpr ⟨hpnot, hst.1⟩, ?_⟩
    intro q hq
    rcases List.mem_cons.mp hq with rfl | hq1
    · exact ⟨by simp, hb, hf⟩
    · obtain ⟨hl1, hb1, hf1⟩ := hst.2 q hq1
      refine ⟨?_, hb1, hf1⟩
      have hqp : q ≠ p := fun hh => hpnot (hh ▸ hq1)
      show (if q = p then cur else st.labels q) = cur
      rw [if_neg hqp]
      exact hl1

theorem ccFold_stackInv (hcur : cur ≠ -1) (ps : List (ℤ × ℤ)) :
    ∀ st : CCState, CCStackInv mask w h cur st →
      CCStackInv mask w h cur (ccFold mask w h cur ps st) := by
  induction ps with
  | nil => intro st hst; exact hst
  | cons p ps ih =>
      intro st hst
      exact ih _ (ccPush_stackInv hcur st p hst)

theorem ccFold_stack_mono (ps : List (ℤ × ℤ)) :
    ∀ st : CCState, ∀ q ∈ st.stack, q ∈ (ccFold mask w h cur ps st).stack := by
  induction ps with
  | nil => intro st q hq; exact hq
  | cons p ps ih =>
      intro st q hq
      refine ih _ q ?_
      rcases @ccPush_cases mask w h cur st p with hc | hc
      · rw [hc]; exact hq
      · rw [hc.1]; exact List.mem_cons_of_mem _ hq

theorem ccFold_stack_cases (ps : List (ℤ × ℤ)) :
    ∀ st : CCState, ∀ q ∈ (ccFold mask w h cur ps st).stack,
      q ∈ st.stack ∨ q ∈ ps := by
  induction ps with
  | nil => intro st q hq; exact Or.inl hq
  | cons p ps ih =>
      intro st q hq
      rcases ih _ q hq with hq1 | hq1
      · rcases @ccPush_cases mask w h cur st p with hc | hc
        · rw [hc] at hq1; exact Or.inl hq1
        · rw [hc.1] at hq1
          rcases List.mem_cons.mp hq1 with rfl | hq2
          · exact Or.inr (List.mem_cons_self _ _)
          · exact Or.inl hq2
      · exact Or.inr (List.mem_cons_of_mem _ hq1)

theorem ccFold_cover (hcur : cur ≠ -1) (ps : List (ℤ × ℤ)) :
    ∀ st : CCState, ∀ p ∈ ps, p ∈ boundsSet w h → mask p.2 p.1 = true →
      (ccFold mask w h cur ps st).labels p ≠ -1 := by
  induction ps with
  | nil => intro st p hp; exact absurd hp (List.not_mem_nil p)
  | cons c ps ih =>
      intro st p hp hb hf
      rcases List.mem_cons.mp hp with rfl | hp1
      · have h1 : (ccPush mask w h cur st p).labels p ≠ -1 := by
          by_cases hl : st.labels p = -1
          · unfold ccPush
            obtain ⟨b1, b2, b3, b4⟩ := mem_boundsSet.mp hb
            rw [if_pos ⟨b1, b2, b3, b4, hf, hl⟩]
            simp only [if_pos rfl]
            exact hcur
          · rw [ccPush_labels_mono st p p hl]
            exact hl
        rw [ccFold, List.foldl_cons, ← ccFold]
        rw [ccFold_labels_mono ps _ p h1]
        exact h1
      · rw [ccFold, List.foldl_cons, ← ccFold]
        exact ih _ p hp1 hb hf

theorem ccPush_measure (hcur : cur ≠ -1) (st : CCState) (p : ℤ × ℤ) :
    ccMeasure w h (ccPush mask w h cur st p) ≤ ccMeasure w h st := by
  rcases @ccPush_cases mask w h cur st p with hc | hc
  · rw [hc]
  · obtain ⟨heq, hb, _, hl⟩ := hc
    rw [heq]
    unfold ccMeasure
    simp only [List.length_cons]
    have hpm : p ∈ (boundsSet w h).filter (fun q => st.labels q = -1) :=
      Finset.mem_filter.mpr ⟨hb, hl⟩
    have hfe : (boundsSet w h).filter
        (fun q => (if q = p then cur else st.labels q) = -1) =
        ((boundsSet w h).filter (fun q => st.labels q = -1)).erase p := by
      ext q
      simp only [Finset.mem_filter, Finset.mem_erase]
      by_cases hqp : q = p
      · subst hqp
        simp [hcur]
      · simp only [if_neg hqp, hqp, not_false_iff, true_and]
        tauto
    rw [hfe, Finset.card_erase_of_mem hpm]
    have hk : 0 < ((boundsSet w h).filter (fun q => st.labels q = -1)).card :=
      Finset.card_pos.mpr ⟨p, hpm⟩
    omega

theorem ccFold_measure (hcur : cur ≠ -1) (ps : List (ℤ × ℤ)) :
    ∀ st : CCState,
      ccMeasure w h (ccFold mask w h cur ps st) ≤ ccMeasure w h st := by
  induction ps with
  | nil => intro st; exact le_refl _
  | cons p ps ih =>
      intro st
      exact le_trans (ih _) (ccPush_measure hcur st p)

/-- A pixel freshly labeled during a fold of pushes sits on the resulting
stack. -/
theorem ccFold_pushed_on_stack (ps : List (ℤ × ℤ)) :
    ∀ st : CCState, ∀ q, st.labels q = -1 →
      (ccFold mask w h cur ps st).labels q ≠ -1 →
      q ∈ (ccFold mask w h cur ps st).stack := by
  induction ps with
  | nil => intro st q hq hq2; exact absurd hq hq2
  | cons p ps ih =>
      intro st q hq hq2
      rw [ccFold, List.foldl_cons, ← ccFold] at hq2 ⊢
      by_cases hl : (ccPush mask w h cur st p).labels q = -1
      · exact ih _ q hl hq2
      · rcases @ccPush_labels_cases mask w h cur st p q with hc | hc
        · rw [hc] at hl; exact absurd hq hl
        · obtain ⟨rfl, _, _, _, _⟩ := hc
          refine ccFold_stack_mono ps _ q ?_
          rcases @ccPush_cases mask w h cur st q with hd | hd
          · rw [hd] at hl; exact absurd hq hl
          · rw [hd.1]; exact List.mem_cons_self _ _

/-- Every pixel on the stack after a fold of pushes was already on the stack
or was unlabeled before the fold. -/
theorem ccFold_stack_new (ps : List (ℤ × ℤ)) :
    ∀ st : CCState, ∀ q ∈ (ccFold mask w h cur ps st).stack,
      q ∈ st.stack ∨ st.labels q = -1 := by
  induction ps with
  | nil => intro st q hq; exact Or.inl hq
  | cons p ps ih =>
      intro st q hq
      rw [ccFold, List.foldl_cons, ← ccFold] at hq
      rcases ih _ q hq with hq1 | hq1
      · rcases @ccPush_cases mask w h cur st p with hc | hc
        · rw [hc] at hq1; exact Or.inl hq1
        · rw [hc.1] at hq1
          rcases List.mem_cons.mp hq1 with rfl | hq2
          · exact Or.inr hc.2.2.2
          · exact Or.inl hq2
      · rcases @ccPush_labels_cases mask w h cur st p q with hc | hc
        · rw [hc] at hq1; exact Or.inr hq1
        · exact Or.inr hc.2.1

end CCLemmas

/-- The set of in-bounds pixels currently carrying label `cur`. -/
def curSet (w h : ℕ) (cur : ℤ) (st : CCState) : Finset (ℤ × ℤ) :=
  (boundsSet w h).filter (fun q => st.labels q = cur)

/-- The pixels carrying label `cur` that have already been popped: those not
on the pending stack.  Area and bounding box accumulate exactly over these. -/
def poppedSet (w h : ℕ) (cur : ℤ) (st : CCState) : Finset (ℤ × ℤ) :=
  curSet w h cur st \ st.stack.toFinset

/-- Invariant of the per-component flood fill seeded at `s` with id `cur`,
on top of the pre-existing label grid `L`. -/
structure CCInv (mask : ℤ → ℤ → Bool) (w h : ℕ) (L : ℤ × ℤ → ℤ) (cur : ℤ)
    (s : ℤ × ℤ) (st : CCState) : Prop where
  shape : ∀ q, st.labels q = L q ∨ (L q = -1 ∧ st.labels q = cur)
  seedCur : st.labels s = cur
  curConn : ∀ q, st.labels q = cur → Conn mask w h s q
  stackInv : CCStackInv mask w h cur st
  closed : ∀ q, st.labels q = cur → q ∉ st.stack → ∀ r, Adj q r →
    r ∈ boundsSet w h → mask r.2 r.1 = true → st.labels r ≠ -1
  areaEq : st.area = (poppedSet w h cur st).card
  minX_le : ∀ q ∈ insert s (poppedSet w h cur st), st.minX ≤ q.1
  minX_mem : ∃ q ∈ insert s (poppedSet w h cur st), st.minX = q.1
  maxX_le : ∀ q ∈ insert s (poppedSet w h cur st), q.1 ≤ st.maxX
  maxX_mem : ∃ q ∈ insert s (poppedSet w h cur st), st.maxX = q.1
  minY_le : ∀ q ∈ insert s (poppedSet w h cur st), st.minY ≤ q.2
  minY_mem : ∃ q ∈ insert s (poppedSet w h cur st), st.minY = q.2
  maxY_le : ∀ q ∈ insert s (poppedSet w h cur st), q.2 ≤ st.maxY
  maxY_mem : ∃ q ∈ insert s (poppedSet w h cur st), st.maxY = q.2

section MinMaxHelpers

variable {α : Type} [DecidableEq α] {P : Finset α} {s c : α} {m : ℤ} {f : α → ℤ}

theorem minUpdate_le (hle : ∀ q ∈ insert s P, m ≤ f q) :
    ∀ q ∈ insert s (insert c P), min m (f c) ≤ f q := by
  intro q hq
  rcases Finset.mem_insert.mp hq with rfl | hq1
  · exact le_trans (min_le_left _ _) (hle q (Finset.mem_insert_self _ _))
  · rcases Finset.mem_insert.mp hq1 with rfl | hq2
    · exact min_le_right _ _
    · exact le_trans (min_le_left _ _) (hle q (Finset.mem_insert_of_mem hq2))

theorem minUpdate_mem (hmem : ∃ q ∈ insert s P, m = f q) :
    ∃ q ∈ insert s (insert c P), min m (f c) = f q := by
  rcases min_cases m (f c) with ⟨hmin, _⟩ | ⟨hmin, _⟩
  · obtain ⟨q, hq, hq2⟩ := hmem
    refine ⟨q, ?_, hmin.trans hq2⟩
    rcases Finset.mem_insert.mp hq with rfl | hq1
    · exact Finset.mem_insert_self _ _
    · exact Finset.mem_insert_of_mem (Finset.mem_insert_of_mem hq1)
  · exact ⟨c, Finset.mem_insert_of_mem (Finset.mem_insert_self _ _), hmin⟩

theorem maxUpdate_le (hle : ∀ q ∈ insert s P, f q ≤ m) :
    ∀ q ∈ insert s (insert c P), f q ≤ max m (f c) := by
  intro q hq
  rcases Finset.mem_insert.mp hq with rfl | hq1
  · exact le_trans (hle q (Finset.mem_insert_self _ _)) (le_max_left _ _)
  · rcases Finset.mem_insert.mp hq1 with rfl | hq2
    · exact le_max_right _ _
    · exact le_trans (hle q (Finset.mem_insert_of_mem hq2)) (le_max_left _ _)

theorem maxUpdate_mem (hmem : ∃ q ∈ insert s P, m = f q) :
    ∃ q ∈ insert s (insert c P), max m (f c) = f q := by
  rcases max_cases m (f c) with ⟨hmax, _⟩ | ⟨hmax, _⟩
  · obtain ⟨q, hq, hq2⟩ := hmem
    refine ⟨q, ?_, hmax.trans hq2⟩
    rcases Finset.mem_insert.mp hq with rfl | hq1
    · exact Finset.mem_insert_self _ _
    · exact Finset.mem_insert_of_mem (Finset.mem_insert_of_mem hq1)
  · exact ⟨c, Finset.mem_insert_of_mem (Finset.mem_insert_self _ _), hmax⟩

end MinMaxHelpers

/-- One iteration of the per-component flood fill preserves the invariant. -/
theorem ccIter_inv {mask : ℤ → ℤ → Bool} {w h : ℕ} {L : ℤ × ℤ → ℤ} {cur : ℤ}
    {s : ℤ × ℤ} (hcur : cur ≠ -1) {st : CCState}
    (hinv : CCInv mask w h L cur s st)
    {c : ℤ × ℤ} {rest : List (ℤ × ℤ)} (hstack : st.stack = c :: rest) :
    CCInv mask w h L cur s
      (ccFold mask w h cur (nbrsOf c)
        { st with stack := rest, area := st.area + 1,
                  minX := min st.minX c.1, maxX := max st.maxX c.1,
                  minY := min st.minY c.2, maxY := max st.maxY c.2 }) := by
  set st1 : CCState :=
    { st with stack := rest, area := st.area + 1,
              minX := min st.minX c.1, maxX := max st.maxX c.1,
              minY := min st.minY c.2, maxY := max st.maxY c.2 } with hst1
  set st2 := ccFold mask w h cur (nbrsOf c) st1 with hst2
  have hcs : c ∈ st.stack := by rw [hstack]; exact List.mem_cons_self _ _
  obtain ⟨hcl, hcb, hcf⟩ := hinv.stackInv.2 c hcs
  have hnodup : (c :: rest).Nodup := by rw [← hstack]; exact hinv.stackInv.1
  have hcrest : c ∉ rest := (List.nodup_cons.mp hnodup).1
  have hl1 : st1.labels = st.labels := rfl
  -- A: pixels labeled cur stay labeled cur
  have hA : ∀ q, st.labels q = cur → st2.labels q = cur := by
    intro q hq
    rw [hst2, ccFold_labels_mono (nbrsOf c) st1 q (by rw [hl1, hq]; exact hcur),
      hl1, hq]
  -- B: pixels labeled cur afterwards were labeled cur or are fresh neighbors
  have hB : ∀ q, st2.labels q = cur →
      st.labels q = cur ∨
        (q ∈ nbrsOf c ∧ st.labels q = -1 ∧ q ∈ boundsSet w h ∧
          mask q.2 q.1 = true) := by
    intro q hq
    rcases ccFold_labels_cases hcur (nbrsOf c) st1 q with hd | hd
    · rw [hst2] at hq
      rw [hq] at hd
      exact Or.inl hd.symm
    · exact Or.inr ⟨hd.1, hd.2.1, hd.2.2.2⟩
  -- C: stack pixels afterwards were pending or fresh
  have hC : ∀ q ∈ st2.stack, q ∈ rest ∨ st.labels q = -1 := by
    intro q hq
    rcases ccFold_stack_new (nbrsOf c) st1 q hq with hd | hd
    · exact Or.inl hd
    · exact Or.inr hd
  -- D: pending pixels stay on the stack
  have hD : ∀ q ∈ rest, q ∈ st2.stack := fun q hq =>
    ccFold_stack_mono (nbrsOf c) st1 q hq
  -- E: freshly labeled pixels are on the stack
  have hE : ∀ q, st.labels q = -1 → st2.labels q ≠ -1 → q ∈ st2.stack :=
    fun q hq hq2 => ccFold_pushed_on_stack (nbrsOf c) st1 q hq hq2
  have hF : c ∉ st2.stack := by
    intro hmem
    rcases hC c hmem with hd | hd
    · exact hcrest hd
    · rw [hcl] at hd; exact hcur hd
  have hG : c ∉ poppedSet w h cur st := by
    intro hmem
    exact (Finset.mem_sdiff.mp hmem).2 (List.mem_toFinset.mpr hcs)
  -- the popped set grows by exactly the popped pixel c
  have hpop : poppedSet w h cur st2 = insert c (poppedSet w h cur st) := by
    ext q
    simp only [poppedSet, curSet, Finset.mem_sdiff, Finset.mem_filter,
      Finset.mem_insert, List.mem_toFinset]
    constructor
    · rintro ⟨⟨hqb, hql⟩, hqs⟩
      rcases hB q hql with hd | hd
      · by_cases hqc : q = c
        · exact Or.inl hqc
        · refine Or.inr ⟨⟨hqb, hd⟩, ?_⟩
          intro hmem
          rw [hstack] at hmem
          rcases List.mem_cons.mp hmem with rfl | hmem1
          · exact hqc rfl
          · exact hqs (hD q hmem1)
      · exact absurd (hE q hd.2.1 (by rw [hql]; exact hcur)) hqs
    · rintro (rfl | ⟨⟨hqb, hql⟩, hqs⟩)
      · exact ⟨⟨hcb, hA q hcl⟩, hF⟩
      · refine ⟨⟨hqb, hA q hql⟩, ?_⟩
        intro hmem
        rcases hC q hmem with hd | hd
        · exact hqs (by rw [hstack]; exact List.mem_cons_of_mem _ hd)
        · rw [hql] at hd; exact hcur hd
  have hgeom := @ccFold_geom mask w h cur (nbrsOf c) st1
  refine ⟨?_, ?_, ?_, ?_, ?_, ?_, ?_, ?_, ?_, ?_, ?_, ?_, ?_, ?_⟩
  · -- shape
    intro q
    rcases ccFold_labels_cases hcur (nbrsOf c) st1 q with hd | hd
    · rw [hst2, hd, hl1]; exact hinv.shape q
    · rcases hinv.shape q with he | he
      · rw [hl1] at hd
        refine Or.inr ⟨?_, hd.2.2.1⟩
        rw [← he]; exact hd.2.1
      · rw [hl1, he.2] at hd
        exact absurd hd.2.1 hcur
  · -- seedCur
    exact hA s hinv.seedCur
  · -- curConn
    intro q hq
    rcases hB q hq with hd | hd
    · exact hinv.curConn q hd
    · obtain ⟨hqn, _, hqb, hqf⟩ := hd
      obtain ⟨d, hdm, rfl⟩ := List.mem_map.mp hqn
      exact Conn.tail (hinv.curConn c hcl) ⟨d, hdm, rfl⟩ hqb hqf
  · -- stackInv
    refine ccFold_stackInv hcur (nbrsOf c) st1 ⟨(List.nodup_cons.mp hnodup).2, ?_⟩
    intro q hq
    exact hinv.stackInv.2 q (by rw [hstack]; exact List.mem_cons_of_mem _ hq)
  · -- closed
    intro q hq hqs r hadj hrb hrf
    rcases hB q hq with hd | hd
    · by_cases hqc : q = c
      · subst hqc
        obtain ⟨d, hdm, rfl⟩ := hadj
        exact ccFold_cover hcur (nbrsOf q) st1 _ (List.mem_map.mpr ⟨d, hdm, rfl⟩)
          hrb hrf
      · have hqrest : q ∉ rest := fun hmem => hqs (hD q hmem)
        have hqstack : q ∉ st.stack := by
          rw [hstack]
          intro hmem
          rcases List.mem_cons.mp hmem with rfl | hmem1
          · exact hqc rfl
          · exact hqrest hmem1
        have hr := hinv.closed q hd hqstack r hadj hrb hrf
        rw [hst2, ccFold_labels_mono (nbrsOf c) st1 r (by rw [hl1]; exact hr), hl1]
        exact hr
    · exact absurd (hE q hd.2.1 (by rw [hq]; exact hcur)) hqs
  · -- areaEq
    rw [hpop, Finset.card_insert_of_not_mem hG, hgeom.1]
    show st.area + 1 = _
    rw [hinv.areaEq]
  · -- minX_le
    rw [hpop, hgeom.2.1]
    exact minUpdate_le hinv.minX_le
  · rw [hpop, hgeom.2.1]
    exact minUpdate_mem hinv.minX_mem
  · rw [hpop, hgeom.2.2.1]
    exact maxUpdate_le hinv.maxX_le
  · rw [hpop, hgeom.2.2.1]
    exact maxUpdate_mem hinv.maxX_mem
  · rw [hpop, hgeom.2.2.2.1]
    exact minUpdate_le hinv.minY_le
  · rw [hpop, hgeom.2.2.2.1]
    exact minUpdate_mem hinv.minY_mem
  · rw [hpop, hgeom.2.2.2.2]
    exact maxUpdate_le hinv.maxY_le
  · rw [hpop, hgeom.2.2.2.2]
    exact maxUpdate_mem hinv.maxY_mem

/-- Main loop lemma for the per-component flood fill: with sufficient fuel,
the invariant is preserved and the loop drains the stack. -/
theorem ccLoopF_spec {mask : ℤ → ℤ → Bool} {w h : ℕ} {L : ℤ × ℤ → ℤ}
    {cur : ℤ} {s : ℤ × ℤ} (hcur : cur ≠ -1) :
    ∀ (fuel : ℕ) (st : CCState), ccMeasure w h st < fuel →
      CCInv mask w h L cur s st →
      CCInv mask w h L cur s (ccLoopF mask w h cur fuel st) ∧
      (ccLoopF mask w h cur fuel st).stack = [] := by
  intro fuel
  induction fuel with
  | zero => intro st hm; exact absurd hm (Nat.not_lt_zero _)
  | succ fuel ih =>
      intro st hm hinv
      match hst : st.stack with
      | [] =>
          have hloop : ccLoopF mask w h cur (fuel + 1) st = st := by
            rw [ccLoopF]
            simp only [hst]
          rw [hloop]
          exact ⟨hinv, hst⟩
      | c :: rest =>
          set st1 : CCState :=
            { st with stack := rest, area := st.area + 1,
                      minX := min st.minX c.1, maxX := max st.maxX c.1,
                      minY := min st.minY c.2, maxY := max st.maxY c.2 } with hst1
          have hm2 : ccMeasure w h (ccFold mask w h cur (nbrsOf c) st1) < fuel := by
            have h1 : ccMeasure w h (ccFold mask w h cur (nbrsOf c) st1) ≤
                ccMeasure w h st1 := ccFold_measure hcur (nbrsOf c) st1
            have h2 : ccMeasure w h st1 + 1 = ccMeasure w h st := by
              show 5 * _ + rest.length + 1 = 5 * _ + st.stack.length
              rw [hst]
              simp only [List.length_cons]
              omega
            omega
          have hloop : ccLoopF mask w h cur (fuel + 1) st =
              ccLoopF mask w h cur fuel (ccFold mask w h cur (nbrsOf c) st1) := by
            rw [ccLoopF]
            simp only [hst]
          rw [hloop]
          exact ih _ hm2 (ccIter_inv hcur hinv hst)

/-- The state seeded at `s` with component id `cur` on top of label grid `L`
(`labels[y, x] = current; stack.append((x, y))` plus the accumulator
initialization in the outer loop body). -/
def ccSeedState (L : ℤ × ℤ → ℤ) (cur : ℤ) (s : ℤ × ℤ) : CCState :=
  { labels := fun q => if q = s then cur else L q, stack := [s], area := 0,
    minX := s.1, maxX := s.1, minY := s.2, maxY := s.2 }

theorem ccSeedState_inv {mask : ℤ → ℤ → Bool} {w h : ℕ} {L : ℤ × ℤ → ℤ}
    {cur : ℤ} {s : ℤ × ℤ} (hcur : cur ≠ -1) (hLcur : ∀ q, L q ≠ cur)
    (hLs : L s = -1) (hsb : s ∈ boundsSet w h) (hsf : mask s.2 s.1 = true) :
    CCInv mask w h L cur s (ccSeedState L cur s) := by
  have hlab : ∀ q, (ccSeedState L cur s).labels q = cur → q = s := by
    intro q hq
    by_cases hqs : q = s
    · exact hqs
    · rw [show (ccSeedState L cur s).labels q = L q from if_neg hqs] at hq
      exact absurd hq (hLcur q)
  have hpopped : poppedSet w h cur (ccSeedState L cur s) = ∅ := by
    rw [Finset.eq_empty_iff_forall_not_mem]
    intro q hq
    obtain ⟨hq1, hq2⟩ := Finset.mem_sdiff.mp hq
    have hqs : q = s := hlab q (Finset.mem_filter.mp hq1).2
    subst hqs
    exact hq2 (List.mem_toFinset.mpr (List.mem_singleton_self q))
  refine ⟨?_, ?_, ?_, ?_, ?_, ?_, ?_, ?_, ?_, ?_, ?_, ?_, ?_, ?_⟩
  · intro q
    by_cases hqs : q = s
    · subst hqs
      exact Or.inr ⟨hLs, if_pos rfl⟩
    · exact Or.inl (if_neg hqs)
  · exact if_pos rfl
  · intro q hq
    rw [hlab q hq]
    exact Conn.refl s hsb hsf
  · refine ⟨List.nodup_singleton s, ?_⟩
    intro q hq
    rw [List.mem_singleton.mp hq]
    exact ⟨if_pos rfl, hsb, hsf⟩
  · intro q hq hqs
    exact absurd (List.mem_singleton.mpr (hlab q hq)) hqs
  · rw [hpopped]; rfl
  · intro q hq
    rw [hpopped] at hq
    rcases Finset.mem_insert.mp hq with rfl | hq2
    · exact le_refl _
    · exact absurd hq2 (Finset.not_mem_empty q)
  · exact ⟨s, by rw [hpopped]; exact Finset.mem_insert_self _ _, rfl⟩
  · intro q hq
    rw [hpopped] at hq
    rcases Finset.mem_insert.mp hq with rfl | hq2
    · exact le_refl _
    · exact absurd hq2 (Finset.not_mem_empty q)
  · exact ⟨s, by rw [hpopped]; exact Finset.mem_insert_self _ _, rfl⟩
  · intro q hq
    rw [hpopped] at hq
    rcases Finset.mem_insert.mp hq with rfl | hq2
    · exact le_refl _
    · exact absurd hq2 (Finset.not_mem_empty q)
  · exact ⟨s, by rw [hpopped]; exact Finset.mem_insert_self _ _, rfl⟩
  · intro q hq
    rw [hpopped] at hq
    rcases Finset.mem_insert.mp hq with rfl | hq2
    · exact le_refl _
    · exact absurd hq2 (Finset.not_mem_empty q)
  · exact ⟨s, by rw [hpopped]; exact Finset.mem_insert_self _ _, rfl⟩

/-- Full specification of one seeded component flood: the pixels labeled
`cur` afterwards are exactly the connectivity class of the seed, older labels
are untouched, the stack is drained, and the area and bounding-box
accumulators describe the labeled set exactly. -/
theorem ccFlood_spec {mask : ℤ → ℤ → Bool} {w h : ℕ} {L : ℤ × ℤ → ℤ}
    {cur : ℤ} {s : ℤ × ℤ} (hcur : cur ≠ -1) (hLcur : ∀ q, L q ≠ cur)
    (HL : ∀ a b, L a ≠ -1 → Conn mask w h a b → L b = L a)
    (hLs : L s = -1) (hsb : s ∈ boundsSet w h) (hsf : mask s.2 s.1 = true) :
    ∀ stf, stf = ccLoopF mask w h cur
        (ccMeasure w h (ccSeedState L cur s) + 1) (ccSeedState L cur s) →
      (∀ q, stf.labels q = cur ↔ Conn mask w h s q) ∧
      (∀ q, stf.labels q ≠ cur → stf.labels q = L q) ∧
      stf.area = (curSet w h cur stf).card ∧
      (∀ q ∈ curSet w h cur stf,
        stf.minX ≤ q.1 ∧ q.1 ≤ stf.maxX ∧ stf.minY ≤ q.2 ∧ q.2 ≤ stf.maxY) ∧
      (∃ q ∈ curSet w h cur stf, stf.minX = q.1) ∧
      (∃ q ∈ curSet w h cur stf, stf.maxX = q.1) ∧
      (∃ q ∈ curSet w h cur stf, stf.minY = q.2) ∧
      (∃ q ∈ curSet w h cur stf, stf.maxY = q.2) := by
  intro stf hstf
  obtain ⟨hinv, hdrained⟩ := @ccLoopF_spec mask w h L cur s hcur _
    (ccSeedState L cur s) (Nat.lt_succ_self _)
    (ccSeedState_inv hcur hLcur hLs hsb hsf)
  rw [← hstf] at hinv hdrained
  have hpe : poppedSet w h cur stf = curSet w h cur stf := by
    unfold poppedSet
    rw [hdrained]
    simp
  have hsmem : s ∈ curSet w h cur stf :=
    Finset.mem_filter.mpr ⟨hsb, hinv.seedCur⟩
  have hie : insert s (poppedSet w h cur stf) = curSet w h cur stf := by
    rw [hpe]
    exact Finset.insert_eq_self.mpr hsmem
  have hiff : ∀ q, stf.labels q = cur ↔ Conn mask w h s q := by
    intro q
    constructor
    · exact hinv.curConn q
    · intro hconn
      induction hconn with
      | refl hb hf => exact hinv.seedCur
      | tail hpq hadj hrb hrf ih =>
          rename_i q' r
          have hr : stf.labels r ≠ -1 :=
            hinv.closed q' ih (by rw [hdrained]; exact List.not_mem_nil _)
              r hadj hrb hrf
          rcases hinv.shape r with he | he
          · exfalso
            rw [he] at hr
            have hconn_sr : Conn mask w h s r := Conn.tail hpq hadj hrb hrf
            have := HL r s hr hconn_sr.symm
            rw [hLs] at this
            exact hr this.symm
          · exact he.2
  refine ⟨hiff, ?_, ?_, ?_, ?_, ?_, ?_, ?_⟩
  · intro q hq
    rcases hinv.shape q with he | he
    · exact he
    · exact absurd he.2 hq
  · rw [hinv.areaEq, hpe]
  · intro q hq
    rw [← hie] at hq
    exact ⟨hinv.minX_le q hq, hinv.maxX_le q hq, hinv.minY_le q hq,
      hinv.maxY_le q hq⟩
  · rw [← hie]; exact hinv.minX_mem
  · rw [← hie]; exact hinv.maxX_mem
  · rw [← hie]; exact hinv.minY_mem
  · rw [← hie]; exact hinv.maxY_mem

/-! ### The row-major scan order -/

/-- Row-major index of a pixel: the position in which the outer double loop
visits it. -/
def rmIdx (w : ℕ) (p : ℤ × ℤ) : ℤ := p.2 * w + p.1

theorem mem_scanList {w h : ℕ} {p : ℤ × ℤ} :
    p ∈ scanList w h ↔ p ∈ boundsSet w h := by
  constructor
  · intro hp
    obtain ⟨y, hy, hp2⟩ := List.mem_flatMap.mp hp
    obtain ⟨x, hx, rfl⟩ := List.mem_map.mp hp2
    rw [List.mem_range] at hy hx
    refine mem_boundsSet.mpr ⟨Int.natCast_nonneg x, ?_, Int.natCast_nonneg y, ?_⟩
    · show (x : ℤ) < (w : ℤ)
      exact_mod_cast hx
    · show (y : ℤ) < (h : ℤ)
      exact_mod_cast hy
  · intro hp
    obtain ⟨h1, h2, h3, h4⟩ := mem_boundsSet.mp hp
    refine List.mem_flatMap.mpr ⟨p.2.toNat, ?_, ?_⟩
    · rw [List.mem_range]; omega
    · refine List.mem_map.mpr ⟨p.1.toNat, ?_, ?_⟩
      · rw [List.mem_range]; omega
      · rw [Int.toNat_of_nonneg h1, Int.toNat_of_nonneg h3]

theorem scanList_pairwise (w h : ℕ) :
    (scanList w h).Pairwise (fun p q => rmIdx w p < rmIdx w q) := by
  induction h with
  | zero => exact List.Pairwise.nil
  | succ h ih =>
      have hsplit : scanList w (h + 1) =
          scanList w h ++ (List.range w).map (fun (x : ℕ) => ((x : ℤ), (h : ℤ))) := by
        unfold scanList
        rw [List.range_succ, List.flatMap_append, List.flatMap_cons,
          List.flatMap_nil, List.append_nil]
      rw [hsplit, List.pairwise_append]
      refine ⟨ih, ?_, ?_⟩
      · rw [List.pairwise_map]
        refine List.Pairwise.imp ?_ (List.pairwise_lt_range w)
        intro a b hab
        simp only [rmIdx]
        omega
      · intro a ha b hb
        have hab : a ∈ boundsSet w h := mem_scanList.mp ha
        obtain ⟨a1, a2, a3, a4⟩ := mem_boundsSet.mp hab
        obtain ⟨x, hx, rfl⟩ := List.mem_map.mp hb
        rw [List.mem_range] at hx
        simp only [rmIdx]
        have h5 : a.2 * (w:ℤ) + a.1 < h * w := by nlinarith
        have h6 : (0:ℤ) ≤ (x:ℕ) := Int.natCast_nonneg x
        have h7 : ((h:ℤ) * w : ℤ) ≤ (h:ℤ) * w + (x:ℕ) := by omega
        calc a.2 * (w:ℤ) + a.1 < (h:ℤ) * w := h5
          _ ≤ ((x:ℕ),(h:ℕ)).2 * (w:ℤ) + ((x:ℕ),(h:ℕ)).1 := by push_cast; omega


/-- Splitting the scan order at a pixel: everything before it has a smaller
row-major index, and every in-bounds pixel with a smaller row-major index
comes before it. -/
theorem scanList_split {w h : ℕ} {done todo : List (ℤ × ℤ)} {p : ℤ × ℤ}
    (hsplit : scanList w h = done ++ p :: todo) :
    p ∈ boundsSet w h ∧
    (∀ q ∈ done, q ∈ boundsSet w h ∧ rmIdx w q < rmIdx w p) ∧
    (∀ q ∈ boundsSet w h, rmIdx w q < rmIdx w p → q ∈ done) := by
  have hpw := scanList_pairwise w h
  rw [hsplit, List.pairwise_append] at hpw
  obtain ⟨_, hp2, hp3⟩ := hpw
  have hmemp : p ∈ scanList w h := by
    rw [hsplit]
    exact List.mem_append_right _ (List.mem_cons_self _ _)
  refine ⟨mem_scanList.mp hmemp, ?_, ?_⟩
  · intro q hq
    have hqs : q ∈ scanList w h := by
      rw [hsplit]; exact List.mem_append_left _ hq
    exact ⟨mem_scanList.mp hqs, hp3 q hq p (List.mem_cons_self _ _)⟩
  · intro q hqb hqlt
    have hqs : q ∈ scanList w h := mem_scanList.mpr hqb
    rw [hsplit] at hqs
    rcases List.mem_append.mp hqs with hd | hd
    · exact hd
    · rcases List.mem_cons.mp hd with rfl | hd1
      · exact absurd hqlt (lt_irrefl _)
      · have hlt := (List.pairwise_cons.mp hp2).1 q hd1
        exact absurd hqlt (not_lt.mpr (le_of_lt hlt))

/-- Row-major indices are injective on in-bounds pixels. -/
theorem rmIdx_inj {w h : ℕ} {p q : ℤ × ℤ} (hp : p ∈ boundsSet w h)
    (hq : q ∈ boundsSet w h) (he : rmIdx w p = rmIdx w q) : p = q := by
  obtain ⟨p1, p2, p3, p4⟩ := mem_boundsSet.mp hp
  obtain ⟨q1, q2, q3, q4⟩ := mem_boundsSet.mp hq
  simp only [rmIdx] at he
  have h2 : p.2 = q.2 := by nlinarith
  rw [h2] at he
  have h1 : p.1 = q.1 := by linarith
  exact Prod.ext h1 h2

/-! ### Correctness of the outer labeling loop -/

/-- The set of in-bounds pixels with label `c` under a label grid `L`. -/
def compSet (w h : ℕ) (L : ℤ × ℤ → ℤ) (c : ℤ) : Finset (ℤ × ℤ) :=
  (boundsSet w h).filter (fun q => L q = c)

/-- A stats row describes label `c` of the label grid `L` exactly: its area
is the number of pixels with that label, and `[x, x + width - 1] ×
[y, y + height - 1]` is the minimal bounding box of those pixels. -/
def statMatches (w h : ℕ) (L : ℤ × ℤ → ℤ) (c : ℤ) (st : CCStat) : Prop :=
  st.area = (compSet w h L c).card ∧
  (∀ q ∈ compSet w h L c, st.x ≤ q.1 ∧ q.1 ≤ st.x + st.width - 1 ∧
    st.y ≤ q.2 ∧ q.2 ≤ st.y + st.height - 1) ∧
  (∃ q ∈ compSet w h L c, q.1 = st.x) ∧
  (∃ q ∈ compSet w h L c, q.1 = st.x + st.width - 1) ∧
  (∃ q ∈ compSet w h L c, q.2 = st.y) ∧
  (∃ q ∈ compSet w h L c, q.2 = st.y + st.height - 1)

/-- Invariant of the outer double loop of `connected_components` after
having scanned the pixels in `done`. -/
structure OuterInv (mask : ℤ → ℤ → Bool) (w h : ℕ) (done : List (ℤ × ℤ))
    (acc : (ℤ × ℤ → ℤ) × List CCStat × ℕ) : Prop where
  curEq : acc.2.2 = acc.2.1.length
  labRange : ∀ q, acc.1 q ≠ -1 →
    q ∈ boundsSet w h ∧ mask q.2 q.1 = true ∧ 0 ≤ acc.1 q ∧
      acc.1 q < (acc.2.2 : ℤ)
  compClosed : ∀ a b, acc.1 a ≠ -1 → Conn mask w h a b → acc.1 b = acc.1 a
  sameLabelConn : ∀ a b, acc.1 a ≠ -1 → acc.1 b = acc.1 a → Conn mask w h a b
  discovered : ∀ q, acc.1 q ≠ -1 ↔
    (q ∈ boundsSet w h ∧ mask q.2 q.1 = true ∧ ∃ q0 ∈ done, Conn mask w h q0 q)
  statsSpec : ∀ (c : ℕ) (hc : c < acc.2.1.length),
    statMatches w h acc.1 (c : ℤ) (acc.2.1.get ⟨c, hc⟩)
  orderSpec : ∀ a b, acc.1 a ≠ -1 → acc.1 b ≠ -1 → acc.1 a < acc.1 b →
    ∃ r, acc.1 r = acc.1 a ∧ rmIdx w r < rmIdx w b

theorem outerInv_init (mask : ℤ → ℤ → Bool) (w h : ℕ) :
    OuterInv mask w h [] (fun _ => -1, [], 0) := by
  refine ⟨rfl, ?_, ?_, ?_, ?_, ?_, ?_⟩
  · intro q hq; exact absurd rfl hq
  · intro a b ha; exact absurd rfl ha
  · intro a b ha; exact absurd rfl ha
  · intro q
    constructor
    · intro hq; exact absurd rfl hq
    · rintro ⟨_, _, q0, hq0, _⟩
      exact absurd hq0 (List.not_mem_nil q0)
  · intro c hc; exact absurd hc (Nat.not_lt_zero c)
  · intro a b ha; exact absurd rfl ha

/-- Scanning one more pixel preserves the outer invariant. -/
theorem ccStep_outerInv {mask : ℤ → ℤ → Bool} {w h : ℕ}
    {done todo : List (ℤ × ℤ)} {p : ℤ × ℤ}
    {acc : (ℤ × ℤ → ℤ) × List CCStat × ℕ}
    (hsplit : scanList w h = done ++ p :: todo)
    (hinv : OuterInv mask w h done acc) :
    OuterInv mask w h (done ++ [p]) (ccStep mask w h acc p) := by
  obtain ⟨hpb, hdone1, hdone2⟩ := scanList_split hsplit
  by_cases hskip : mask p.2 p.1 = false ∨ acc.1 p ≠ -1
  · -- pixel is background or already labeled: the accumulator is unchanged
    have hstep : ccStep mask w h acc p = acc := by
      unfold ccStep
      rw [if_pos hskip]
    rw [hstep]
    refine ⟨hinv.curEq, hinv.labRange, hinv.compClosed, hinv.sameLabelConn,
      ?_, hinv.statsSpec, hinv.orderSpec⟩
    intro q
    rw [hinv.discovered q]
    constructor
    · rintro ⟨hb, hf, q0, hq0, hc⟩
      exact ⟨hb, hf, q0, List.mem_append_left _ hq0, hc⟩
    · rintro ⟨hb, hf, q0, hq0, hc⟩
      rcases List.mem_append.mp hq0 with hd | hd
      · exact ⟨hb, hf, q0, hd, hc⟩
      · rw [List.mem_singleton] at hd
        subst hd
        rcases hskip with hs | hs
        · exfalso
          have hff := hc.src_fg.2
          rw [hs] at hff
          exact Bool.noConfusion hff
        · have hlq : acc.1 q ≠ -1 := by
            rw [hinv.compClosed q0 q hs hc]
            exact hs
          exact (hinv.discovered q).mp hlq
  · -- foreground unlabeled pixel: seed a new component
    have hf0 : mask p.2 p.1 = true := by
      cases hmm : mask p.2 p.1 with
      | false => exact absurd (Or.inl hmm) hskip
      | true => exact rfl
    have hLp : acc.1 p = -1 := by
      by_cases hb : acc.1 p = -1
      · exact hb
      · exact absurd (Or.inr hb) hskip
    have hcur : ((acc.2.2 : ℕ) : ℤ) ≠ -1 := by omega
    have hLcur : ∀ q, acc.1 q ≠ ((acc.2.2 : ℕ) : ℤ) := by
      intro q hq
      by_cases hd : acc.1 q = -1
      · rw [hd] at hq
        exact hcur hq.symm
      · have hlr := (hinv.labRange q hd).2.2.2
        rw [hq] at hlr
        exact absurd hlr (lt_irrefl _)
    set stf := ccLoopF mask w h ((acc.2.2 : ℕ) : ℤ)
      (ccMeasure w h (ccSeedState acc.1 ((acc.2.2 : ℕ) : ℤ) p) + 1)
      (ccSeedState acc.1 ((acc.2.2 : ℕ) : ℤ) p) with hstf
    have hstep : ccStep mask w h acc p =
        (stf.labels,
         acc.2.1 ++ [⟨stf.minX, stf.minY, stf.maxX - stf.minX + 1,
                      stf.maxY - stf.minY + 1, stf.area⟩],
         acc.2.2 + 1) := by
      unfold ccStep
      rw [if_neg hskip]
      rfl
    obtain ⟨hiff, hshape, harea, hbb, hex1, hex2, hex3, hex4⟩ :=
      ccFlood_spec hcur hLcur hinv.compClosed hLp hpb hf0 stf hstf
    -- old labels are preserved by the flood
    have hpres : ∀ q, acc.1 q ≠ -1 → stf.labels q = acc.1 q := by
      intro q hq
      by_cases hc : stf.labels q = ((acc.2.2 : ℕ) : ℤ)
      · exfalso
        have hconn := (hiff q).mp hc
        have hpq := hinv.compClosed q p hq hconn.symm
        rw [hLp] at hpq
        exact hq hpq.symm
      · exact hshape q hc
    have hnew : ∀ q, stf.labels q = ((acc.2.2 : ℕ) : ℤ) → acc.1 q = -1 := by
      intro q hq
      by_cases hd : acc.1 q = -1
      · exact hd
      · rw [hpres q hd] at hq
        exact absurd hq (hLcur q)
    rw [hstep]
    refine ⟨?_, ?_, ?_, ?_, ?_, ?_, ?_⟩
    · -- curEq
      show acc.2.2 + 1 = (acc.2.1 ++ _).length
      rw [List.length_append, hinv.curEq, List.length_singleton]
    · -- labRange
      dsimp only
      intro q hq
      by_cases hc : stf.labels q = ((acc.2.2 : ℕ) : ℤ)
      · have hconn := (hiff q).mp hc
        refine ⟨hconn.dst_fg.1, hconn.dst_fg.2, ?_, ?_⟩
        · rw [hc]; omega
        · rw [hc]
          show ((acc.2.2 : ℕ) : ℤ) < ((acc.2.2 + 1 : ℕ) : ℤ)
          push_cast
          omega
      · have he := hshape q hc
        rw [he] at hq ⊢
        obtain ⟨hb, hf, h0, hlt⟩ := hinv.labRange q hq
        refine ⟨hb, hf, h0, lt_trans hlt ?_⟩
        show ((acc.2.2 : ℕ) : ℤ) < ((acc.2.2 + 1 : ℕ) : ℤ)
        push_cast
        omega
    · -- compClosed
      dsimp only
      intro a b ha hconn
      by_cases hc : stf.labels a = ((acc.2.2 : ℕ) : ℤ)
      · have hpa := (hiff a).mp hc
        have hpb2 := hpa.trans hconn
        rw [hc, (hiff b).mpr hpb2]
      · have he := hshape a hc
        rw [he] at ha
        have hLb := hinv.compClosed a b ha hconn
        rw [he, hpres b (by rw [hLb]; exact ha), hLb]
    · -- sameLabelConn
      dsimp only
      intro a b ha hab
      by_cases hc : stf.labels a = ((acc.2.2 : ℕ) : ℤ)
      · have hpa := (hiff a).mp hc
        have hpb2 := (hiff b).mp (by rw [hab, hc])
        exact hpa.symm.trans hpb2
      · have he := hshape a hc
        have hcb : stf.labels b ≠ ((acc.2.2 : ℕ) : ℤ) := by rw [hab]; exact hc
        have heb := hshape b hcb
        rw [he] at ha
        rw [he, heb] at hab
        exact hinv.sameLabelConn a b ha hab
    · -- discovered
      dsimp only
      intro q
      constructor
      · intro hq
        by_cases hc : stf.labels q = ((acc.2.2 : ℕ) : ℤ)
        · have hconn := (hiff q).mp hc
          exact ⟨hconn.dst_fg.1, hconn.dst_fg.2, p,
            List.mem_append_right _ (List.mem_singleton_self p), hconn⟩
        · have he := hshape q hc
          rw [he] at hq
          obtain ⟨hb, hf, q0, hq0, hcq⟩ := (hinv.discovered q).mp hq
          exact ⟨hb, hf, q0, List.mem_append_left _ hq0, hcq⟩
      · rintro ⟨hb, hf, q0, hq0, hcq⟩
        rcases List.mem_append.mp hq0 with hd | hd
        · have hLq : acc.1 q ≠ -1 := (hinv.discovered q).mpr ⟨hb, hf, q0, hd, hcq⟩
          rw [hpres q hLq]
          exact hLq
        · rw [List.mem_singleton] at hd
          subst hd
          rw [(hiff q).mpr hcq]
          exact hcur
    · -- statsSpec
      dsimp only
      intro c hc
      have hc2 := hc
      rw [List.length_append, List.length_singleton] at hc2
      by_cases hlt : c < acc.2.1.length
      · have hget : (acc.2.1 ++ ([⟨stf.minX, stf.minY, stf.maxX - stf.minX + 1,
            stf.maxY - stf.minY + 1, stf.area⟩] : List CCStat)).get ⟨c, hc⟩ =
            acc.2.1.get ⟨c, hlt⟩ := by
          rw [List.get_eq_getElem, List.get_eq_getElem]
          exact List.getElem_append_left hlt
        rw [hget]
        have hcc : (c : ℤ) ≠ ((acc.2.2 : ℕ) : ℤ) := by
          rw [hinv.curEq]
          intro hee
          rw [Int.natCast_inj] at hee
          omega
        have hset : compSet w h stf.labels (c : ℤ) = compSet w h acc.1 (c : ℤ) := by
          unfold compSet
          apply Finset.filter_congr
          intro q _
          constructor
          · intro hq
            rw [← hq]
            symm
            exact hshape q (by rw [hq]; exact hcc)
          · intro hq
            rw [← hq]
            exact hpres q (by rw [hq]; omega)
        have hold := hinv.statsSpec c hlt
        unfold statMatches at hold ⊢
        rw [hset]
        exact hold
      · have hceq : c = acc.2.1.length := by omega
        subst hceq
        have hget : (acc.2.1 ++ ([⟨stf.minX, stf.minY, stf.maxX - stf.minX + 1,
            stf.maxY - stf.minY + 1, stf.area⟩] : List CCStat)).get
              ⟨acc.2.1.length, hc⟩ =
            (⟨stf.minX, stf.minY, stf.maxX - stf.minX + 1,
              stf.maxY - stf.minY + 1, stf.area⟩ : CCStat) := by
          rw [List.get_eq_getElem]
          rw [List.getElem_append_right (le_refl _)]
          simp
        rw [hget]
        have hsete : compSet w h stf.labels ((acc.2.1.length : ℕ) : ℤ) =
            curSet w h ((acc.2.2 : ℕ) : ℤ) stf := by
          rw [← hinv.curEq]
          rfl
        unfold statMatches
        rw [hsete]
        refine ⟨harea, ?_, ?_, ?_, ?_, ?_⟩
        · intro q hq
          obtain ⟨b1, b2, b3, b4⟩ := hbb q hq
          refine ⟨b1, ?_, b3, ?_⟩ <;> simp only <;> omega
        · obtain ⟨q, hq, he⟩ := hex1
          exact ⟨q, hq, he.symm⟩
        · obtain ⟨q, hq, he⟩ := hex2
          refine ⟨q, hq, ?_⟩
          simp only
          omega
        · obtain ⟨q, hq, he⟩ := hex3
          exact ⟨q, hq, he.symm⟩
        · obtain ⟨q, hq, he⟩ := hex4
          refine ⟨q, hq, ?_⟩
          simp only
          omega
    · -- orderSpec
      dsimp only
      intro a b ha hb hab
      by_cases hcb : stf.labels b = ((acc.2.2 : ℕ) : ℤ)
      · -- b belongs to the new component: its pixels all lie at or after p
        have hca : stf.labels a ≠ ((acc.2.2 : ℕ) : ℤ) := by
          intro he
          rw [he, hcb] at hab
          exact absurd hab (lt_irrefl _)
        have hea := hshape a hca
        rw [hea] at ha
        -- the component of a was discovered from some q0 strictly before p
        obtain ⟨_, _, q0, hq0, hcq0⟩ := (hinv.discovered a).mp ha
        have hLq0 : acc.1 q0 = acc.1 a := hinv.compClosed a q0 ha hcq0.symm
        have hrm0 : rmIdx w q0 < rmIdx w p := (hdone1 q0 hq0).2
        -- every pixel of the new component has row-major index ≥ that of p
        have hrmb : rmIdx w p ≤ rmIdx w b := by
          by_contra hcon
          push_neg at hcon
          have hconnb := (hiff b).mp hcb
          have hbb2 := hconnb.dst_fg
          have hbdone : b ∈ done := hdone2 b hbb2.1 hcon
          have hLb : acc.1 b ≠ -1 :=
            (hinv.discovered b).mpr ⟨hbb2.1, hbb2.2, b, hbdone,
              Conn.refl b hbb2.1 hbb2.2⟩
          exact absurd (hnew b hcb) hLb
        refine ⟨q0, ?_, by omega⟩
        rw [hpres q0 (by rw [hLq0]; exact ha), hLq0, hea]
      · have heb := hshape b hcb
        have hca : stf.labels a ≠ ((acc.2.2 : ℕ) : ℤ) := by
          intro he
          rw [he] at hab
          rw [heb] at hb hab
          have hlb := (hinv.labRange b hb).2.2.2
          omega
        have hea := hshape a hca
        rw [hea] at ha
        rw [heb] at hb
        rw [hea, heb] at hab
        obtain ⟨r, hr1, hr2⟩ := hinv.orderSpec a b ha hb hab
        refine ⟨r, ?_, hr2⟩
        rw [hpres r (by rw [hr1]; exact ha), hr1, hea]

theorem ccOuterFold (mask : ℤ → ℤ → Bool) (w h : ℕ) :
    ∀ (todo done : List (ℤ × ℤ)) (acc : (ℤ × ℤ → ℤ) × List CCStat × ℕ),
      scanList w h = done ++ todo →
      OuterInv mask w h done acc →
      OuterInv mask w h (scanList w h) (todo.foldl (ccStep mask w h) acc) := by
  intro todo
  induction todo with
  | nil =>
      intro done acc hsplit hinv
      rw [List.append_nil] at hsplit
      rw [List.foldl_nil, hsplit]
      exact hinv
  | cons p todo ih =>
      intro done acc hsplit hinv
      rw [List.foldl_cons]
      refine ih (done ++ [p]) _ ?_ (ccStep_outerInv hsplit hinv)
      rw [hsplit, List.append_assoc, List.singleton_append]

/-- The outer invariant holds of the finished
`connected_components` computation. -/
theorem connected_components_inv (mask : ℤ → ℤ → Bool) (w h : ℕ) :
    OuterInv mask w h (scanList w h)
      ((scanList w h).foldl (ccStep mask w h) (fun _ => -1, [], 0)) :=
  ccOuterFold mask w h (scanList w h) [] _ (List.nil_append _).symm
    (outerInv_init mask w h)

theorem connected_components_eq (mask : ℤ → ℤ → Bool) (w h : ℕ) :
    connected_components mask w h =
      (((scanList w h).foldl (ccStep mask w h) (fun _ => -1, [], 0)).1,
       ((scanList w h).foldl (ccStep mask w h) (fun _ => -1, [], 0)).2.1) := rfl

/-- Every in-bounds foreground pixel receives a label. -/
theorem cc_fg_labeled (mask : ℤ → ℤ → Bool) (w h : ℕ) {q : ℤ × ℤ}
    (hb : q ∈ boundsSet w h) (hf : mask q.2 q.1 = true) :
    (connected_components mask w h).1 q ≠ -1 :=
  ((connected_components_inv mask w h).discovered q).mpr
    ⟨hb, hf, q, mem_scanList.mpr hb, Conn.refl q hb hf⟩

/-- Labeled pixels are in-bounds foreground pixels with a label in
`[0, stats.length)`. -/
theorem cc_label_range (mask : ℤ → ℤ → Bool) (w h : ℕ) {q : ℤ × ℤ}
    (hq : (connected_components mask w h).1 q ≠ -1) :
    q ∈ boundsSet w h ∧ mask q.2 q.1 = true ∧
      0 ≤ (connected_components mask w h).1 q ∧
      (connected_components mask w h).1 q <
        ((connected_components mask w h).2.length : ℤ) := by
  have hinv := connected_components_inv mask w h
  have hr := hinv.labRange q hq
  rw [hinv.curEq] at hr
  exact hr

/-- Two labeled pixels carry the same label iff they are 4-connected through
foreground pixels. -/
theorem cc_label_iff_conn (mask : ℤ → ℤ → Bool) (w h : ℕ) {a b : ℤ × ℤ}
    (ha : (connected_components mask w h).1 a ≠ -1) :
    (connected_components mask w h).1 b = (connected_components mask w h).1 a ↔
      Conn mask w h a b := by
  have hinv := connected_components_inv mask w h
  exact ⟨hinv.sameLabelConn a b ha, hinv.compClosed a b ha⟩

/-- Summing a mapped list equals summing its entries by index. -/
theorem list_sum_map_area (l : List CCStat) :
    (l.map CCStat.area).sum =
      ∑ c in Finset.range l.length, (l.getD c default).area := by
  induction l with
  | nil => simp
  | cons a l ih =>
      rw [List.map_cons, List.sum_cons, List.length_cons,
        Finset.sum_range_succ' _ l.length]
      simp only [List.getD_cons_succ, List.getD_cons_zero]
      rw [ih]
      omega

/-- A stats row that matches its label set has `area ≤ width * height`. -/
theorem statMatches_area_le {w h : ℕ} {L : ℤ × ℤ → ℤ} {c : ℤ} {st : CCStat}
    (hm : statMatches w h L c st) : (st.area : ℤ) ≤ st.width * st.height := by
  obtain ⟨harea, hbox, hx1, hx2, hy1, hy2⟩ := hm
  have hsub : compSet w h L c ⊆
      Finset.Icc st.x (st.x + st.width - 1) ×ˢ
        Finset.Icc st.y (st.y + st.height - 1) := by
    intro q hq
    obtain ⟨b1, b2, b3, b4⟩ := hbox q hq
    rw [Finset.mem_product, Finset.mem_Icc, Finset.mem_Icc]
    exact ⟨⟨b1, b2⟩, ⟨b3, b4⟩⟩
  have hwpos : 1 ≤ st.width := by
    obtain ⟨q, hq, he⟩ := hx2
    have := (hbox q hq).1
    omega
  have hhpos : 1 ≤ st.height := by
    obtain ⟨q, hq, he⟩ := hy2
    have := (hbox q hq).2.2.1
    omega
  have hcard := Finset.card_le_card hsub
  rw [Finset.card_product, Int.card_Icc, Int.card_Icc] at hcard
  rw [harea]
  have he1 : ((st.x + st.width - 1 + 1 - st.x).toNat : ℤ) = st.width := by
    rw [Int.toNat_of_nonneg (by omega)]
    omega
  have he2 : ((st.y + st.height - 1 + 1 - st.y).toNat : ℤ) = st.height := by
    rw [Int.toNat_of_nonneg (by omega)]
    omega
  calc ((compSet w h L c).card : ℤ)
      ≤ (((st.x + st.width - 1 + 1 - st.x).toNat *
          (st.y + st.height - 1 + 1 - st.y).toNat : ℕ) : ℤ) := by
        exact_mod_cast hcard
    _ = st.width * st.height := by
        push_cast
        rw [he1, he2]

/-- The component areas sum to the number of foreground pixels. -/
theorem cc_sum_areas (mask : ℤ → ℤ → Bool) (w h : ℕ) :
    (((connected_components mask w h).2.map CCStat.area).sum) =
      ((boundsSet w h).filter (fun q => mask q.2 q.1 = true)).card := by
  have hmem : ∀ q ∈ (boundsSet w h).filter (fun q => mask q.2 q.1 = true),
      ((connected_components mask w h).1 q).toNat ∈
        Finset.range (connected_components mask w h).2.length := by
    intro q hq
    obtain ⟨hqb, hqf⟩ := Finset.mem_filter.mp hq
    have hlq := cc_label_range mask w h (cc_fg_labeled mask w h hqb hqf)
    rw [Finset.mem_range]
    omega
  have hfib := Finset.card_eq_sum_card_fiberwise hmem
  rw [hfib, list_sum_map_area]
  apply Finset.sum_congr rfl
  intro c hc
  rw [Finset.mem_range] at hc
  have hfide : ((boundsSet w h).filter (fun q => mask q.2 q.1 = true)).filter
      (fun q => ((connected_components mask w h).1 q).toNat = c) =
      compSet w h (connected_components mask w h).1 (c : ℤ) := by
    ext q
    simp only [Finset.mem_filter, compSet]
    constructor
    · rintro ⟨⟨hqb, hqf⟩, hqt⟩
      have hlq := cc_label_range mask w h (cc_fg_labeled mask w h hqb hqf)
      refine ⟨hqb, ?_⟩
      omega
    · rintro ⟨hqb, hqc⟩
      have hne : (connected_components mask w h).1 q ≠ -1 := by
        rw [hqc]
        omega
      have hlq := cc_label_range mask w h hne
      refine ⟨⟨hqb, hlq.2.1⟩, ?_⟩
      rw [hqc]
      omega
  rw [hfide]
  have hgd : (connected_components mask w h).2.getD c default =
      (connected_components mask w h).2.get ⟨c, hc⟩ := by
    rw [List.getD_eq_getElem _ default hc, List.get_eq_getElem]
  rw [hgd]
  have hsm := (connected_components_inv mask w h).statsSpec c hc
  exact hsm.1

/-- C2: in the LabelGrid returned by `connected_components`, background
pixels keep the sentinel `-1`, foreground pixels get a nonnegative label that
is less than the number of components, labels are dense starting at 0, two
foreground pixels share a label iff they are 4-connected through foreground
pixels, and a component with a smaller label has a pixel strictly earlier in
row-major order than every pixel of a component with a larger label
(discovery order). -/
theorem claim_C2 (mask : ℤ → ℤ → Bool) (w h : ℕ) :
    (∀ q ∈ boundsSet w h, mask q.2 q.1 = false →
      (connected_components mask w h).1 q = -1) ∧
    (∀ q ∈ boundsSet w h, mask q.2 q.1 = true →
      0 ≤ (connected_components mask w h).1 q ∧
      (connected_components mask w h).1 q <
        ((connected_components mask w h).2.length : ℤ)) ∧
    (∀ c : ℕ, c < (connected_components mask w h).2.length →
      ∃ q ∈ boundsSet w h, (connected_components mask w h).1 q = (c : ℤ)) ∧
    (∀ a ∈ boundsSet w h, ∀ b ∈ boundsSet w h, mask a.2 a.1 = true →
      mask b.2 b.1 = true →
      ((connected_components mask w h).1 a =
        (connected_components mask w h).1 b ↔ Conn mask w h a b)) ∧
    (∀ a b, (connected_components mask w h).1 a ≠ -1 →
      (connected_components mask w h).1 b ≠ -1 →
      (connected_components mask w h).1 a <
        (connected_components mask w h).1 b →
      ∃ r, (connected_components mask w h).1 r =
        (connected_components mask w h).1 a ∧ rmIdx w r < rmIdx w b) := by
  refine ⟨?_, ?_, ?_, ?_, ?_⟩
  · intro q _ hqf
    by_contra hne
    have := (cc_label_range mask w h hne).2.1
    rw [hqf] at this
    exact Bool.noConfusion this
  · intro q hqb hqf
    exact (cc_label_range mask w h (cc_fg_labeled mask w h hqb hqf)).2.2
  · intro c hc
    obtain ⟨q, hq, _⟩ :=
      ((connected_components_inv mask w h).statsSpec c hc).2.2.1
    obtain ⟨hqb, hql⟩ := Finset.mem_filter.mp hq
    exact ⟨q, hqb, hql⟩
  · intro a hab b hbb haf hbf
    have ha := cc_fg_labeled mask w h hab haf
    constructor
    · intro he
      exact (cc_label_iff_conn mask w h ha).mp he.symm
    · intro hconn
      exact ((cc_label_iff_conn mask w h ha).mpr hconn).symm
  · exact (connected_components_inv mask w h).orderSpec

theorem claim_C2_witness :
    (connected_components (fun y x => decide (y = x)) 2 2).1 (1, 0) = -1 ∧
    (0 ≤ (connected_components (fun y x => decide (y = x)) 2 2).1 (0, 0) ∧
      (connected_components (fun y x => decide (y = x)) 2 2).1 (0, 0) <
        ((connected_components (fun y x => decide (y = x)) 2 2).2.length : ℤ)) ∧
    (∃ q ∈ boundsSet 2 2,
      (connected_components (fun y x => decide (y = x)) 2 2).1 q = ((1 : ℕ) : ℤ)) ∧
    ((connected_components (fun y x => decide (y = x)) 2 2).1 (0, 0) =
      (connected_components (fun y x => decide (y = x)) 2 2).1 (1, 1) ↔
      Conn (fun y x => decide (y = x)) 2 2 (0, 0) (1, 1)) ∧
    (∃ r, (connected_components (fun y x => decide (y = x)) 2 2).1 r =
      (connected_components (fun y x => decide (y = x)) 2 2).1 (0, 0) ∧
      rmIdx 2 r < rmIdx 2 (1, 1)) :=
  ⟨(claim_C2 (fun y x => decide (y = x)) 2 2).1 (1, 0) (by decide) (by decide),
   (claim_C2 (fun y x => decide (y = x)) 2 2).2.1 (0, 0) (by decide) (by decide),
   (claim_C2 (fun y x => decide (y = x)) 2 2).2.2.1 1 (by decide),
   (claim_C2 (fun y x => decide (y = x)) 2 2).2.2.2.1 (0, 0) (by decide) (1, 1)
     (by decide) (by decide) (by decide),
   (claim_C2 (fun y x => decide (y = x)) 2 2).2.2.2.2 (0, 0) (1, 1)
     (by decide) (by decide) (by decide)⟩

/-- C4: each stats row of `connected_components` describes its component
exactly — the area equals the number of pixels with that label, the bounding
box is the minimal box containing them (hence `area ≤ width * height`), and
the areas sum to the total foreground pixel count. -/
theorem claim_C4 (mask : ℤ → ℤ → Bool) (w h : ℕ) :
    (∀ (c : ℕ) (hc : c < (connected_components mask w h).2.length),
      statMatches w h (connected_components mask w h).1 (c : ℤ)
        ((connected_components mask w h).2.get ⟨c, hc⟩) ∧
      (((connected_components mask w h).2.get ⟨c, hc⟩).area : ℤ) ≤
        ((connected_components mask w h).2.get ⟨c, hc⟩).width *
          ((connected_components mask w h).2.get ⟨c, hc⟩).height) ∧
    ((connected_components mask w h).2.map CCStat.area).sum =
      ((boundsSet w h).filter (fun q => mask q.2 q.1 = true)).card := by
  refine ⟨?_, cc_sum_areas mask w h⟩
  intro c hc
  have hsm := (connected_components_inv mask w h).statsSpec c hc
  exact ⟨hsm, statMatches_area_le hsm⟩

theorem claim_C4_witness :
    statMatches 2 2 (connected_components (fun y x => decide (y = x)) 2 2).1
      ((0 : ℕ) : ℤ)
      ((connected_components (fun y x => decide (y = x)) 2 2).2.getD 0 default) ∧
    ((connected_components (fun y x => decide (y = x)) 2 2).2.map
      CCStat.area).sum =
      ((boundsSet 2 2).filter
        (fun q => (fun (y x : ℤ) => decide (y = x)) q.2 q.1 = true)).card := by
  have h0 : 0 < (connected_components (fun (y x : ℤ) => decide (y = x)) 2 2).2.length := by
    decide
  have happ := claim_C4 (fun (y x : ℤ) => decide (y = x)) 2 2
  refine ⟨?_, happ.2⟩
  have hgd : (connected_components (fun (y x : ℤ) => decide (y = x)) 2 2).2.getD 0 default =
      (connected_components (fun (y x : ℤ) => decide (y = x)) 2 2).2.get ⟨0, h0⟩ := by
    rw [List.getD_eq_getElem _ default h0, List.get_eq_getElem]
  rw [hgd]
  exact (happ.1 0 h0).1

/-- `keep = {idx | stats[idx].area >= minArea}`: the component-filtering step
shared by both pipelines (`remove_interior_lines` uses
`MIN_COMPONENT_AREA_PX`, `generate_floor_mask` uses `MIN_FLOOR_AREA_PX`). -/
def keepSet (stats : List CCStat) (minArea : ℕ) : Finset ℕ :=
  (Finset.range stats.length).filter
    (fun i => minArea ≤ (stats.getD i default).area)

/-- The cleaned mask built by `clean[labels == idx] = 1 for idx in keep`
starting from an all-zero array. -/
def cleanMask (labels : ℤ × ℤ → ℤ) (stats : List CCStat) (minArea : ℕ) :
    ℤ → ℤ → Bool :=
  fun y x => decide (∃ i ∈ keepSet stats minArea, labels (x, y) = (i : ℤ))

/-- C7: a component is kept iff its area is at least the minimum-area
parameter (equality kept), the cleaned mask is foreground exactly at pixels
whose label belongs to a kept component, and the labeler itself performs no
filtering: every foreground pixel is labeled, regardless of area. -/
theorem claim_C7 (mask : ℤ → ℤ → Bool) (w h minArea : ℕ) :
    (∀ i : ℕ, i ∈ keepSet (connected_components mask w h).2 minArea ↔
      (i < (connected_components mask w h).2.length ∧
        minArea ≤ ((connected_components mask w h).2.getD i default).area)) ∧
    (∀ p : ℤ × ℤ,
      cleanMask (connected_components mask w h).1
        (connected_components mask w h).2 minArea p.2 p.1 = true ↔
      ∃ i : ℕ, i < (connected_components mask w h).2.length ∧
        (connected_components mask w h).1 p = (i : ℤ) ∧
        minArea ≤ ((connected_components mask w h).2.getD i default).area) ∧
    (∀ p ∈ boundsSet w h, mask p.2 p.1 = true →
      (connected_components mask w h).1 p ≠ -1) := by
  refine ⟨?_, ?_, ?_⟩
  · intro i
    rw [keepSet, Finset.mem_filter, Finset.mem_range]
  · intro p
    rw [cleanMask, decide_eq_true_iff]
    constructor
    · rintro ⟨i, hi, hl⟩
      rw [keepSet, Finset.mem_filter, Finset.mem_range] at hi
      exact ⟨i, hi.1, hl, hi.2⟩
    · rintro ⟨i, hi, hl, ha⟩
      refine ⟨i, ?_, hl⟩
      rw [keepSet, Finset.mem_filter, Finset.mem_range]
      exact ⟨hi, ha⟩
  · intro p hpb hpf
    exact cc_fg_labeled mask w h hpb hpf

theorem claim_C7_witness :
    ((0 : ℕ) ∈ keepSet (connected_components (fun y x => decide (y = x)) 2 2).2 1 ↔
      (0 < (connected_components (fun y x => decide (y = x)) 2 2).2.length ∧
        1 ≤ ((connected_components (fun y x => decide (y = x)) 2 2).2.getD 0
          default).area)) ∧
    (connected_components (fun y x => decide (y = x)) 2 2).1 (0, 0) ≠ -1 :=
  ⟨(claim_C7 (fun y x => decide (y = x)) 2 2 1).1 0,
   (claim_C7 (fun y x => decide (y = x)) 2 2 1).2.2 (0, 0) (by decide) (by decide)⟩

/-! ## Otsu's threshold (`otsu_threshold` in `remove_interior_lines.py`)

The Python code runs on floats; the embedding computes the same expressions
exactly over `ℚ`.  The histogram of an 8-bit image (`np.histogram(gray,
bins=256, range=(0, 256))`) is `hist[v] = count of pixels with value v`,
embedded as `List.count` over the pixel list. -/

/-- The scan loop of `otsu_threshold`, over the remaining bin indices.
State: `sum_b`, `w_b`, `max_var`, `threshold`.  `continue` on an empty
background class, `break` on an empty foreground class, strict `>` update
of the running maximum. -/
def otsuGo (hist : ℕ → ℕ) (total : ℕ) (sumTotal : ℚ) :
    List ℕ → ℚ → ℚ → ℚ → ℕ → ℕ
  | [], _, _, _, threshold => threshold
  | t :: ts, sum_b, w_b, max_var, threshold =>
      let w_b2 := w_b + hist t
      if w_b2 = 0 then otsuGo hist total sumTotal ts sum_b w_b2 max_var threshold
      else
        let w_f : ℚ := total - w_b2
        if w_f = 0 then threshold
        else
          let sum_b2 := sum_b + t * hist t
          let m_b := sum_b2 / w_b2
          let m_f := (sumTotal - sum_b2) / w_f
          let var_between := w_b2 * w_f * (m_b - m_f) ^ 2
          if max_var < var_between then
            otsuGo hist total sumTotal ts sum_b2 w_b2 var_between t
          else otsuGo hist total sumTotal ts sum_b2 w_b2 max_var threshold

/-- `otsu_threshold(gray)`: Otsu threshold of an 8-bit grayscale image given
as its list of pixel values. -/
def otsu_threshold (gray : List ℕ) : ℕ :=
  otsuGo (fun v => gray.count v) gray.length
    (∑ i in Finset.range 256, (i : ℚ) * gray.count i)
    (List.range 256) 0 0 (-1) 0

/-- Background weight after scanning bins `< a`:
the running `w_b` entering iteration `a`. -/
def WbP (hist : ℕ → ℕ) (a : ℕ) : ℕ := ∑ i in Finset.range a, hist i

/-- Background weighted sum after scanning bins `< a`:
the running `sum_b` entering iteration `a`. -/
def SbP (hist : ℕ → ℕ) (a : ℕ) : ℚ :=
  ∑ i in Finset.range a, (i : ℚ) * hist i

/-- Candidate threshold `t` is non-degenerate: both classes are nonempty. -/
def otsuValid (hist : ℕ → ℕ) (total t : ℕ) : Prop :=
  0 < WbP hist (t + 1) ∧ WbP hist (t + 1) < total

instance (hist : ℕ → ℕ) (total t : ℕ) : Decidable (otsuValid hist total t) := by
  unfold otsuValid; infer_instance

/-- The between-class variance `w_b * w_f * (m_b - m_f)^2` computed at
candidate threshold `t`. -/
def otsuVar (hist : ℕ → ℕ) (total : ℕ) (sumTotal : ℚ) (t : ℕ) : ℚ :=
  (WbP hist (t + 1) : ℚ) * ((total : ℚ) - WbP hist (t + 1)) *
    (SbP hist (t + 1) / WbP hist (t + 1) -
      (sumTotal - SbP hist (t + 1)) / ((total : ℚ) - WbP hist (t + 1))) ^ 2

/-- Specification of the returned threshold: either no candidate is
non-degenerate and the initial threshold 0 is returned, or the result is the
smallest maximizer of the between-class variance among non-degenerate
candidates. -/
def OtsuResult (hist : ℕ → ℕ) (total : ℕ) (sumTotal : ℚ) (r : ℕ) : Prop :=
  ((∀ t, t < 256 → ¬otsuValid hist total t) ∧ r = 0) ∨
  (r < 256 ∧ otsuValid hist total r ∧
    (∀ t, t < 256 → otsuValid hist total t →
      otsuVar hist total sumTotal t ≤ otsuVar hist total sumTotal r) ∧
    (∀ t, t < r → otsuValid hist total t →
      otsuVar hist total sumTotal t < otsuVar hist total sumTotal r))

/-- Accumulator correctness entering iteration `a`: `max_var`/`threshold`
summarize the candidates `< a`. -/
def OtsuAcc (hist : ℕ → ℕ) (total : ℕ) (sumTotal : ℚ) (a : ℕ) (mv : ℚ)
    (th : ℕ) : Prop :=
  (mv = -1 ∧ th = 0 ∧ ∀ t, t < a → ¬otsuValid hist total t) ∨
  (th < a ∧ otsuValid hist total th ∧ mv = otsuVar hist total sumTotal th ∧
    (∀ t, t < a → otsuValid hist total t →
      otsuVar hist total sumTotal t ≤ mv) ∧
    (∀ t, t < th → otsuValid hist total t →
      otsuVar hist total sumTotal t < mv))

theorem WbP_succ (hist : ℕ → ℕ) (a : ℕ) :
    WbP hist (a + 1) = WbP hist a + hist a := Finset.sum_range_succ hist a

theorem SbP_succ (hist : ℕ → ℕ) (a : ℕ) :
    SbP hist (a + 1) = SbP hist a + a * hist a :=
  Finset.sum_range_succ (fun i => (i : ℚ) * hist i) a

theorem WbP_mono (hist : ℕ → ℕ) {a b : ℕ} (hab : a ≤ b) :
    WbP hist a ≤ WbP hist b :=
  Finset.sum_le_sum_of_subset (Finset.range_subset.mpr hab)

theorem otsuVar_nonneg {hist : ℕ → ℕ} {total : ℕ} {sumTotal : ℚ} {t : ℕ}
    (hv : otsuValid hist total t) : 0 ≤ otsuVar hist total sumTotal t := by
  obtain ⟨h1, h2⟩ := hv
  unfold otsuVar
  have ha : (0 : ℚ) < WbP hist (t + 1) := by exact_mod_cast h1
  have hb : (0 : ℚ) < (total : ℚ) - WbP hist (t + 1) := by
    have : (WbP hist (t + 1) : ℚ) < total := by exact_mod_cast h2
    linarith
  positivity

/-- Main loop lemma for the Otsu scan. -/
theorem otsuGo_spec (hist : ℕ → ℕ) (total : ℕ) (sumTotal : ℚ)
    (hWb : ∀ a, WbP hist a ≤ total) :
    ∀ (k a : ℕ) (mv : ℚ) (th : ℕ), a + k = 256 →
      OtsuAcc hist total sumTotal a mv th →
      OtsuResult hist total sumTotal
        (otsuGo hist total sumTotal (List.range' a k)
          (SbP hist a) (WbP hist a) mv th) := by
  intro k
  induction k with
  | zero =>
      intro a mv th ha hacc
      rw [Nat.add_zero] at ha
      subst ha
      rw [show List.range' 256 0 = [] from rfl]
      rw [otsuGo]
      rcases hacc with ⟨_, hth, hnone⟩ | ⟨hth, hv, hmv, hle, hlt⟩
      · exact Or.inl ⟨hnone, hth⟩
      · refine Or.inr ⟨hth, hv, ?_, ?_⟩
        · intro t ht hvt
          rw [← hmv]
          exact hle t ht hvt
        · intro t ht hvt
          rw [← hmv]
          exact hlt t ht hvt
  | succ k ih =>
      intro a mv th ha hacc
      rw [show List.range' a (k + 1) = a :: List.range' (a + 1) k from rfl]
      rw [otsuGo]
      simp only
      have hwb2 : (WbP hist a : ℚ) + hist a = (WbP hist (a + 1) : ℚ) := by
        rw [WbP_succ]
        push_cast
        ring
      rw [hwb2]
      by_cases hz : (WbP hist (a + 1) : ℚ) = 0
      · rw [if_pos hz]
        have hz2 : WbP hist (a + 1) = 0 := by exact_mod_cast hz
        have hista : hist a = 0 := by
          have := WbP_succ hist a
          omega
        have hsb : SbP hist a = SbP hist (a + 1) := by
          rw [SbP_succ, hista]
          push_cast
          ring
        have hnva : ¬otsuValid hist total a := by
          intro hv
          have h01 := hv.1
          omega
        have hacc2 : OtsuAcc hist total sumTotal (a + 1) mv th := by
          rcases hacc with ⟨h1, h2, h3⟩ | ⟨h1, h2, h3, h4, h5⟩
          · refine Or.inl ⟨h1, h2, ?_⟩
            intro t ht
            rcases Nat.lt_succ_iff_lt_or_eq.mp ht with ht2 | rfl
            · exact h3 t ht2
            · exact hnva
          · refine Or.inr ⟨Nat.lt_succ_of_lt h1, h2, h3, ?_, h5⟩
            intro t ht hvt
            rcases Nat.lt_succ_iff_lt_or_eq.mp ht with ht2 | rfl
            · exact h4 t ht2 hvt
            · exact absurd hvt hnva
        have hk : (a + 1) + k = 256 := by omega
        have hres := ih (a + 1) mv th hk hacc2
        rw [← hsb] at hres
        exact hres
      · rw [if_neg hz]
        by_cases hf : (total : ℚ) - WbP hist (a + 1) = 0
        · rw [if_pos hf]
          -- foreground empty from here on: all remaining candidates invalid
          have htote : WbP hist (a + 1) = total := by
            have : (WbP hist (a + 1) : ℚ) = total := by linarith
            exact_mod_cast this
          have hinv2 : ∀ t, a ≤ t → ¬otsuValid hist total t := by
            intro t hat hv
            have := WbP_mono hist (show a + 1 ≤ t + 1 by omega)
            rw [htote] at this
            exact absurd hv.2 (not_lt.mpr this)
          rcases hacc with ⟨_, hth, hnone⟩ | ⟨hth, hv, hmv, hle, hlt⟩
          · refine Or.inl ⟨?_, hth⟩
            intro t _
            by_cases hta : t < a
            · exact hnone t hta
            · exact hinv2 t (by omega)
          · refine Or.inr ⟨by omega, hv, ?_, ?_⟩
            · intro t ht hvt
              rw [← hmv]
              by_cases hta : t < a
              · exact hle t hta hvt
              · exact absurd hvt (hinv2 t (by omega))
            · intro t ht hvt
              rw [← hmv]
              exact hlt t ht hvt
        · rw [if_neg hf]
          have hva : otsuValid hist total a := by
            constructor
            · rcases Nat.eq_zero_or_pos (WbP hist (a + 1)) with he | he
              · rw [he] at hz
                exact absurd (by norm_num) hz
              · exact he
            · rcases lt_or_eq_of_le (hWb (a + 1)) with he | he
              · exact he
              · exfalso
                rw [he] at hf
                exact hf (by ring)
          have hsb2 : SbP hist a + a * hist a = SbP hist (a + 1) := by
            rw [SbP_succ]
          rw [hsb2]
          have hvar : (WbP hist (a + 1) : ℚ) * ((total : ℚ) - WbP hist (a + 1)) *
              (SbP hist (a + 1) / WbP hist (a + 1) -
                (sumTotal - SbP hist (a + 1)) /
                  ((total : ℚ) - WbP hist (a + 1))) ^ 2 =
              otsuVar hist total sumTotal a := rfl
          have hk : (a + 1) + k = 256 := by omega
          by_cases hup : mv < (WbP hist (a + 1) : ℚ) *
              ((total : ℚ) - WbP hist (a + 1)) *
              (SbP hist (a + 1) / WbP hist (a + 1) -
                (sumTotal - SbP hist (a + 1)) /
                  ((total : ℚ) - WbP hist (a + 1))) ^ 2
          · rw [if_pos hup]
            rw [hvar] at hup
            refine ih (a + 1) _ a hk (Or.inr ⟨Nat.lt_succ_self a, hva, hvar, ?_, ?_⟩)
            · intro t ht hvt
              rcases Nat.lt_succ_iff_lt_or_eq.mp ht with ht2 | rfl
              · rcases hacc with ⟨h1, _, h3⟩ | ⟨_, _, hmv, h4, _⟩
                · exact absurd hvt (h3 t ht2)
                · exact le_trans (h4 t ht2 hvt) (le_of_lt (by rw [hvar]; exact hup))
              · rw [hvar]
            · intro t ht hvt
              rcases hacc with ⟨h1, _, h3⟩ | ⟨_, _, hmv, h4, _⟩
              · exact absurd hvt (h3 t ht)
              · exact lt_of_le_of_lt (h4 t ht hvt) (by rw [hvar]; exact hup)
          · rw [if_neg hup]
            rw [hvar] at hup
            push_neg at hup
            rcases hacc with ⟨h1, _, _⟩ | ⟨h1, h2, h3, h4, h5⟩
            · exfalso
              have := @otsuVar_nonneg hist total sumTotal a hva
              rw [h1] at hup
              linarith
            · refine ih (a + 1) mv th hk (Or.inr ⟨Nat.lt_succ_of_lt h1, h2, h3, ?_, h5⟩)
              intro t ht hvt
              rcases Nat.lt_succ_iff_lt_or_eq.mp ht with ht2 | rfl
              · exact h4 t ht2 hvt
              · exact hup

/-- Counting the values below `m` never exceeds the list length. -/
theorem sum_count_le (l : List ℕ) (m : ℕ) :
    ∑ i in Finset.range m, l.count i ≤ l.length := by
  induction l with
  | nil => simp
  | cons x l ih =>
      have hone : ∑ i in Finset.range m, (if i = x then 1 else 0) =
          if x ∈ Finset.range m then 1 else 0 := Finset.sum_ite_eq' _ x _
      have hsum : ∑ i in Finset.range m, (x :: l).count i =
          (∑ i in Finset.range m, l.count i) +
            ∑ i in Finset.range m, (if i = x then 1 else 0) := by
        rw [← Finset.sum_add_distrib]
        apply Finset.sum_congr rfl
        intro i _
        rw [List.count_cons]
        congr 1
        by_cases hix : i = x
        · subst hix
          simp
        · rw [if_neg hix, if_neg]
          simp only [beq_iff_eq]
          exact fun hh => hix hh.symm
      rw [hsum, hone, List.length_cons]
      split <;> omega

/-- The 256-bin histogram of an 8-bit image is complete: the counts sum to
the number of pixels. -/
theorem sum_count_eq (l : List ℕ) (m : ℕ) (hall : ∀ v ∈ l, v < m) :
    ∑ i in Finset.range m, l.count i = l.length := by
  induction l with
  | nil => simp
  | cons x l ih =>
      have hone : ∑ i in Finset.range m, (if i = x then 1 else 0) =
          if x ∈ Finset.range m then 1 else 0 := Finset.sum_ite_eq' _ x _
      have hsum : ∑ i in Finset.range m, (x :: l).count i =
          (∑ i in Finset.range m, l.count i) +
            ∑ i in Finset.range m, (if i = x then 1 else 0) := by
        rw [← Finset.sum_add_distrib]
        apply Finset.sum_congr rfl
        intro i _
        rw [List.count_cons]
        congr 1
        by_cases hix : i = x
        · subst hix
          simp
        · rw [if_neg hix, if_neg]
          simp only [beq_iff_eq]
          exact fun hh => hix hh.symm
      rw [hsum, hone, List.length_cons,
        ih (fun v hv => hall v (List.mem_cons_of_mem _ hv)),
        if_pos (Finset.mem_range.mpr (hall x (List.mem_cons_self _ _)))]

/-- The returned threshold satisfies the Otsu specification. -/
theorem otsu_threshold_spec (gray : List ℕ) :
    OtsuResult (fun v => gray.count v) gray.length
      (∑ i in Finset.range 256, (i : ℚ) * gray.count i) (otsu_threshold gray) := by
  have hWb : ∀ a, WbP (fun v => gray.count v) a ≤ gray.length :=
    fun a => sum_count_le gray a
  have h0 := otsuGo_spec (fun v => gray.count v) gray.length
    (∑ i in Finset.range 256, (i : ℚ) * gray.count i) hWb 256 0 (-1) 0 rfl
    (Or.inl ⟨rfl, rfl, fun t ht => absurd ht (Nat.not_lt_zero t)⟩)
  simp only [WbP, SbP, Finset.range_zero, Finset.sum_empty, Nat.cast_zero] at h0
  rw [otsu_threshold, List.range_eq_range']
  exact h0

/-- Binarization `gray < t` of the wall extractor. -/
def binarize (gray : List ℕ) (t : ℕ) : List Bool :=
  gray.map (fun g => decide (g < t))

/-- C3: for every 8-bit grayscale image, `otsu_threshold` returns a
threshold in `0..255` maximizing the between-class variance over the 256-bin
histogram (which is complete for 8-bit input), skipping degenerate
candidates where a class is empty, and ties resolve to the lowest
candidate because the update comparison is strict. -/
theorem claim_C3 (gray : List ℕ) (h8 : ∀ v ∈ gray, v < 256) :
    (∑ i in Finset.range 256, gray.count i = gray.length) ∧
    otsu_threshold gray < 256 ∧
    ((∃ t, t < 256 ∧ otsuValid (fun v => gray.count v) gray.length t) →
      otsuValid (fun v => gray.count v) gray.length (otsu_threshold gray) ∧
      (∀ t, t < 256 → otsuValid (fun v => gray.count v) gray.length t →
        otsuVar (fun v => gray.count v) gray.length
            (∑ i in Finset.range 256, (i : ℚ) * gray.count i) t ≤
          otsuVar (fun v => gray.count v) gray.length
            (∑ i in Finset.range 256, (i : ℚ) * gray.count i)
            (otsu_threshold gray)) ∧
      (∀ t, t < 256 → otsuValid (fun v => gray.count v) gray.length t →
        otsuVar (fun v => gray.count v) gray.length
            (∑ i in Finset.range 256, (i : ℚ) * gray.count i) t =
          otsuVar (fun v => gray.count v) gray.length
            (∑ i in Finset.range 256, (i : ℚ) * gray.count i)
            (otsu_threshold gray) →
        otsu_threshold gray ≤ t)) ∧
    ((∀ t, t < 256 → ¬otsuValid (fun v => gray.count v) gray.length t) →
      otsu_threshold gray = 0) := by
  have hspec := otsu_threshold_spec gray
  refine ⟨sum_count_eq gray 256 h8, ?_, ?_, ?_⟩
  · rcases hspec with ⟨_, hr⟩ | ⟨hr, _⟩
    · omega
    · exact hr
  · intro hex
    rcases hspec with ⟨hnone, _⟩ | ⟨hr, hv, hle, hlt⟩
    · obtain ⟨t, ht, hvt⟩ := hex
      exact absurd hvt (hnone t ht)
    · refine ⟨hv, hle, ?_⟩
      intro t ht hvt heq
      by_contra hcon
      push_neg at hcon
      exact absurd heq (ne_of_lt (hlt t hcon hvt))
  · intro hnone
    rcases hspec with ⟨_, hr⟩ | ⟨hr, hv, _⟩
    · exact hr
    · exact absurd hv (hnone _ hr)

theorem claim_C3_witness :
    (∑ i in Finset.range 256, ([0, 255] : List ℕ).count i =
      ([0, 255] : List ℕ).length) ∧
    otsu_threshold [0, 255] < 256 ∧
    otsuValid (fun v => ([0, 255] : List ℕ).count v)
      ([0, 255] : List ℕ).length (otsu_threshold [0, 255]) :=
  ⟨(claim_C3 [0, 255] (by decide)).1,
   (claim_C3 [0, 255] (by decide)).2.1,
   ((claim_C3 [0, 255] (by decide)).2.2.1 ⟨0, by decide, by decide⟩).1⟩

/-- C8: for a constant-intensity image every candidate split is degenerate,
so the variance maximum is never updated past the `-1` sentinel, the loop
terminates without reaching the division (both guards fire), the returned
threshold is the initial value 0, and binarizing with `gray < 0` yields an
all-background mask. -/
theorem claim_C8 (v n : ℕ) (hv : v < 256) :
    otsu_threshold (List.replicate n v) = 0 ∧
    (∀ t, ¬otsuValid (fun i => (List.replicate n v).count i)
      (List.replicate n v).length t) ∧
    binarize (List.replicate n v) (otsu_threshold (List.replicate n v)) =
      List.replicate n false := by
  have hWb : ∀ a, WbP (fun i => (List.replicate n v).count i) a =
      if v < a then n else 0 := by
    intro a
    unfold WbP
    have hcong : ∀ i ∈ Finset.range a,
        (List.replicate n v).count i = if i = v then n else 0 := by
      intro i _
      rw [List.count_replicate]
      by_cases hix : i = v
      · subst hix
        simp
      · rw [if_neg hix, if_neg]
        simp only [beq_iff_eq]
        exact fun hh => hix hh.symm
    rw [Finset.sum_congr rfl hcong, Finset.sum_ite_eq' _ v _]
    simp [Finset.mem_range]
  have hnone : ∀ t, ¬otsuValid (fun i => (List.replicate n v).count i)
      (List.replicate n v).length t := by
    intro t hvt
    obtain ⟨h1, h2⟩ := hvt
    rw [hWb] at h1 h2
    rw [List.length_replicate] at h2
    by_cases hvt2 : v < t + 1
    · rw [if_pos hvt2] at h1 h2
      omega
    · rw [if_neg hvt2] at h1
      omega
  have hzero : otsu_threshold (List.replicate n v) = 0 := by
    rcases otsu_threshold_spec (List.replicate n v) with ⟨_, hr⟩ | ⟨hr, hv2, _⟩
    · exact hr
    · rw [List.length_replicate] at hv2
      exact absurd (by rw [List.length_replicate]; exact hv2) (hnone _)
  refine ⟨hzero, hnone, ?_⟩
  rw [hzero, binarize, List.map_replicate]
  rfl

theorem claim_C8_witness :
    otsu_threshold (List.replicate 3 7) = 0 ∧
    binarize (List.replicate 3 7) (otsu_threshold (List.replicate 3 7)) =
      List.replicate 3 false :=
  ⟨(claim_C8 7 3 (by decide)).1, (claim_C8 7 3 (by decide)).2.2⟩

/-! ## Morphology (`ImageFilter.MinFilter` / `ImageFilter.MaxFilter`)

Both scripts delegate erosion and dilation to Pillow's rank filters, whose
implementation is not part of this repository. -/

/-- Modelled from the spec: the `size × size` neighborhood of a pixel used
by the min/max filters (`ImageFilter.MinFilter(size)` /
`ImageFilter.MaxFilter(size)`, not in the repository), clipped to the image
bounds — edge and corner pixels see a smaller effective neighborhood and no
synthetic padding value is included (§4.2 of the specification). -/
def clippedNbhd (w h size : ℕ) (p : ℤ × ℤ) : Finset (ℤ × ℤ) :=
  ((Finset.Icc (p.1 - (size / 2 : ℕ)) (p.1 + (size / 2 : ℕ))) ×ˢ
    (Finset.Icc (p.2 - (size / 2 : ℕ)) (p.2 + (size / 2 : ℕ)))).filter
    (fun q => q ∈ boundsSet w h)

/-- Modelled from the spec: erosion (min filter) keeps a pixel foreground
iff every pixel of its clipped neighborhood is foreground. -/
def erode (g : ℤ → ℤ → Bool) (w h size : ℕ) : ℤ → ℤ → Bool :=
  fun y x => decide (∀ q ∈ clippedNbhd w h size (x, y), g q.2 q.1 = true)

/-- Modelled from the spec: dilation (max filter) makes a pixel foreground
iff some pixel of its clipped neighborhood is foreground. -/
def dilate (g : ℤ → ℤ → Bool) (w h size : ℕ) : ℤ → ℤ → Bool :=
  fun y x => decide (∃ q ∈ clippedNbhd w h size (x, y), g q.2 q.1 = true)

/-- C5: the min/max filter neighborhood is exactly the `size × size` box
clipped to the image bounds — no synthetic padding value participates and
edge/corner pixels see a smaller effective neighborhood — and eroding an
all-foreground mask yields an all-foreground mask for any kernel size. -/
theorem claim_C5 (w h size : ℕ) :
    (∀ p q : ℤ × ℤ, q ∈ clippedNbhd w h size p ↔
      (p.1 - (size / 2 : ℕ) ≤ q.1 ∧ q.1 ≤ p.1 + (size / 2 : ℕ) ∧
       p.2 - (size / 2 : ℕ) ≤ q.2 ∧ q.2 ≤ p.2 + (size / 2 : ℕ) ∧
       q ∈ boundsSet w h)) ∧
    (∀ y x : ℤ, erode (fun _ _ => true) w h size y x = true) ∧
    (∀ y x : ℤ, dilate (fun _ _ => false) w h size y x = false) := by
  refine ⟨?_, ?_, ?_⟩
  · intro p q
    rw [clippedNbhd, Finset.mem_filter, Finset.mem_product, Finset.mem_Icc,
      Finset.mem_Icc]
    tauto
  · intro y x
    rw [erode, decide_eq_true_iff]
    intro q _
    rfl
  · intro y x
    rw [dilate]
    rw [decide_eq_false_iff_not]
    rintro ⟨q, _, hq⟩
    exact Bool.noConfusion hq

/-! ## Texture tiling and compositing (`generate_floor_mask.py`, steps 4-5) -/

/-- `WALL_THRESHOLD = 40`. -/
def WALL_THRESHOLD : ℕ := 40

/-- `MIN_FLOOR_AREA_PX = 500`. -/
def MIN_FLOOR_AREA_PX : ℕ := 500

/-- `SMOOTH_ITERATIONS = 1`. -/
def SMOOTH_ITERATIONS : ℕ := 1

/-- Step 1 of `generate_floor_mask`: `walls = (gray < WALL_THRESHOLD)`. -/
def wallsOf (gray : ℤ → ℤ → ℕ) : ℤ → ℤ → Bool :=
  fun y x => decide (gray y x < WALL_THRESHOLD)

/-- The cleaned floor mask after component filtering
(`clean[labels == idx] = 1` over kept components of the candidate floor). -/
def cleanFloor (gray : ℤ → ℤ → ℕ) (w h : ℕ) : ℤ → ℤ → Bool :=
  cleanMask (connected_components (floorMask (wallsOf gray) w h) w h).1
    (connected_components (floorMask (wallsOf gray) w h) w h).2
    MIN_FLOOR_AREA_PX

/-- The optional smoothing: `SMOOTH_ITERATIONS` rounds of dilate-then-erode
with a fixed kernel of size 3 (the `if SMOOTH_ITERATIONS > 0` guard is the
identity when the count is 0, which iterated application also gives). -/
def smoothFloor (gray : ℤ → ℤ → ℕ) (w h : ℕ) : ℤ → ℤ → Bool :=
  (fun m => erode (dilate m w h 3) w h 3)^[SMOOTH_ITERATIONS]
    (cleanFloor gray w h)

/-- Modelled from the source's `np.tile(tex_arr, (reps_y, reps_x, 1))[:h, :w, :]`:
the tiled texture repeats the tile in row-major fashion and is cropped to the
canvas, so pixel `(y, x)` reads the texture at `(y mod th, x mod tw)`. -/
def tileTexture (tex : ℤ → ℤ → ℕ × ℕ × ℕ) (th tw : ℕ) :
    ℤ → ℤ → ℕ × ℕ × ℕ :=
  fun y x => tex (y % th) (x % tw)

/-- The all-white canvas `np.full((h, w, 3), 255)`. -/
def whiteCanvas : ℤ → ℤ → ℕ × ℕ × ℕ := fun _ _ => (255, 255, 255)

/-- The canvas after the masked assignment `out[walls == 1] = (0, 0, 0)`. -/
def afterWalls (walls : ℤ → ℤ → Bool) : ℤ → ℤ → ℕ × ℕ × ℕ :=
  fun y x => if walls y x = true then (0, 0, 0) else whiteCanvas y x

/-- The final composite after `out[clean == 1] = tiled[clean == 1]`. -/
def outputImage (gray : ℤ → ℤ → ℕ) (tex : ℤ → ℤ → ℕ × ℕ × ℕ)
    (w h th tw : ℕ) : ℤ → ℤ → ℕ × ℕ × ℕ :=
  fun y x =>
    if smoothFloor gray w h y x = true then tileTexture tex th tw y x
    else afterWalls (wallsOf gray) y x

/-- C6: the composite starts from an all-white canvas, walls are painted
black, kept-floor pixels are painted with the tiled texture, the tiled
texture satisfies `tiled[y, x] = texture[y mod th, x mod tw]` (with the
sample coordinates in range), and pixels that are neither wall nor kept
floor remain white. -/
theorem claim_C6 (gray : ℤ → ℤ → ℕ) (tex : ℤ → ℤ → ℕ × ℕ × ℕ)
    (w h th tw : ℕ) (y x : ℤ) (hy0 : 0 ≤ y) (hyh : y < h) (hx0 : 0 ≤ x)
    (hxw : x < w) (hth : 0 < th) (htw : 0 < tw) :
    (tileTexture tex th tw y x = tex (y % th) (x % tw) ∧
      0 ≤ y % th ∧ y % th < th ∧ 0 ≤ x % tw ∧ x % tw < tw) ∧
    (smoothFloor gray w h y x = true →
      outputImage gray tex w h th tw y x = tex (y % th) (x % tw)) ∧
    (smoothFloor gray w h y x = false → wallsOf gray y x = true →
      outputImage gray tex w h th tw y x = (0, 0, 0)) ∧
    (smoothFloor gray w h y x = false → wallsOf gray y x = false →
      outputImage gray tex w h th tw y x = whiteCanvas y x) := by
  refine ⟨⟨rfl, ?_, ?_, ?_, ?_⟩, ?_, ?_, ?_⟩
  · exact Int.emod_nonneg y (by positivity)
  · exact Int.emod_lt_of_pos y (by exact_mod_cast hth)
  · exact Int.emod_nonneg x (by positivity)
  · exact Int.emod_lt_of_pos x (by exact_mod_cast htw)
  · intro hs
    rw [outputImage, if_pos hs]
    rfl
  · intro hs hw
    rw [outputImage, if_neg (by rw [hs]; exact Bool.noConfusion),
      afterWalls, if_pos hw]
  · intro hs hw
    rw [outputImage, if_neg (by rw [hs]; exact Bool.noConfusion),
      afterWalls, if_neg (by rw [hw]; exact Bool.noConfusion)]

theorem claim_C6_witness :
    (tileTexture (fun _ _ => (1, 2, 3)) 2 2 1 1 =
      (fun (_ _ : ℤ) => ((1 : ℕ), (2 : ℕ), (3 : ℕ))) ((1 : ℤ) % 2) ((1 : ℤ) % 2) ∧
      0 ≤ (1 : ℤ) % 2 ∧ (1 : ℤ) % 2 < 2 ∧ 0 ≤ (1 : ℤ) % 2 ∧ (1 : ℤ) % 2 < 2) ∧
    (smoothFloor (fun _ _ => 255) 2 2 1 1 = false →
      wallsOf (fun _ _ => 255) 1 1 = false →
      outputImage (fun _ _ => 255) (fun _ _ => (1, 2, 3)) 2 2 2 2 1 1 =
        whiteCanvas 1 1) :=
  ⟨(claim_C6 (fun _ _ => 255) (fun _ _ => (1, 2, 3)) 2 2 2 2 1 1 (by decide)
      (by decide) (by decide) (by decide) (by decide) (by decide)).1,
   (claim_C6 (fun _ _ => 255) (fun _ _ => (1, 2, 3)) 2 2 2 2 1 1 (by decide)
      (by decide) (by decide) (by decide) (by decide) (by decide)).2.2.2⟩

/-! ## CLI entry points (`__main__` blocks of both scripts) -/

/-- The usage line printed by `remove_interior_lines.py`. -/
def usageRIL : String :=
  "Usage: python3 scripts/remove_interior_lines.py <input_image> <output_image>"

/-- The usage line printed by `generate_floor_mask.py`. -/
def usageGFM : String :=
  "Usage: python3 scripts/generate_floor_mask.py <walls_only.png> <floor_mask.png>"

/-- The `__main__` block of `remove_interior_lines.py`: `sys.argv` includes
the program name at index 0, so fewer than 2 positional arguments means
`len(sys.argv) < 3`; in that case the usage line is printed and the process
exits with status 1 (the `error` case), otherwise the pipeline runs on
`sys.argv[1]` and `sys.argv[2]` (the `ok` case). -/
def remove_interior_lines_main (argv : List String) :
    Except (ℕ × String) (String × String) :=
  if hlen : argv.length < 3 then Except.error (1, usageRIL)
  else Except.ok (argv.get ⟨1, by omega⟩, argv.get ⟨2, by omega⟩)

/-- The `__main__` block of `generate_floor_mask.py` (same argument-count
contract). -/
def generate_floor_mask_main (argv : List String) :
    Except (ℕ × String) (String × String) :=
  if hlen : argv.length < 3 then Except.error (1, usageGFM)
  else Except.ok (argv.get ⟨1, by omega⟩, argv.get ⟨2, by omega⟩)

/-- C9: with fewer than 2 positional arguments both entry points print their
usage line and exit with status 1 without processing any image; with 2 or
more positional arguments the pipeline is invoked on the first two. -/
theorem claim_C9 (argv : List String) :
    (argv.length < 3 →
      remove_interior_lines_main argv = Except.error (1, usageRIL) ∧
      generate_floor_mask_main argv = Except.error (1, usageGFM)) ∧
    (3 ≤ argv.length →
      remove_interior_lines_main argv =
        Except.ok (argv.getD 1 "", argv.getD 2 "") ∧
      generate_floor_mask_main argv =
        Except.ok (argv.getD 1 "", argv.getD 2 "")) := by
  constructor
  · intro hlen
    rw [remove_interior_lines_main, dif_pos hlen,
      generate_floor_mask_main, dif_pos hlen]
    exact ⟨rfl, rfl⟩
  · intro hlen
    have hnot : ¬argv.length < 3 := by omega
    rw [remove_interior_lines_main, dif_neg hnot,
      generate_floor_mask_main, dif_neg hnot]
    have h1 : argv.get ⟨1, by omega⟩ = argv.getD 1 "" := by
      rw [List.getD_eq_getElem argv "" (by omega), List.get_eq_getElem]
    have h2 : argv.get ⟨2, by omega⟩ = argv.getD 2 "" := by
      rw [List.getD_eq_getElem argv "" (by omega), List.get_eq_getElem]
    rw [h1, h2]
    exact ⟨rfl, rfl⟩

theorem claim_C9_witness :
    (remove_interior_lines_main ["prog"] = Except.error (1, usageRIL) ∧
      generate_floor_mask_main ["prog"] = Except.error (1, usageGFM)) ∧
    (remove_interior_lines_main ["prog", "in.png", "out.png"] =
      Except.ok ((["prog", "in.png", "out.png"] : List String).getD 1 "",
        (["prog", "in.png", "out.png"] : List String).getD 2 "") ∧
      generate_floor_mask_main ["prog", "in.png", "out.png"] =
        Except.ok ((["prog", "in.png", "out.png"] : List String).getD 1 "",
          (["prog", "in.png", "out.png"] : List String).getD 2 "")) :=
  ⟨(claim_C9 ["prog"]).1 (by decide),
   (claim_C9 ["prog", "in.png", "out.png"]).2 (by decide)⟩

end ArtInTech
